import Mathlib

/-!
Shallow embedding of `sigpy/mri/rf/optcont.py` (functions `blochsim` and
`deriv`) and a verification of the specification's claims about them.

Modelling conventions:
* numpy complex arrays over the spin dimension become `List ℂ`;
  the RF waveform is a `List ℂ`, 1-D gradients are `List ℝ` and
  multi-dimensional gradients are `List (List ℝ)` (Nt rows of Ndim reals).
* elementwise numpy operations on two arrays use `ew`, which implements
  numpy's 1-D broadcasting rule (equal lengths, or one side of length 1)
  and fails with `SimErr.shapeMismatch` otherwise.
* out-of-range indexing (`g[mm]` with `mm ≥ len g`) is `SimErr.indexError`.
* fallible computations return `Except SimErr _`; a Python exception at any
  point of the loop corresponds to an `Except.error` result.
-/

namespace Optcont

open Complex

/-- Runtime errors of the Python code: an out-of-range index (`IndexError`)
or a failed elementwise broadcast (`ValueError` from numpy). -/
inductive SimErr : Type
  | indexError : SimErr
  | shapeMismatch : SimErr
deriving DecidableEq

/-- numpy 1-D elementwise combination with broadcasting: equal lengths act
pointwise, a length-1 operand broadcasts, anything else is a shape error. -/
def ew (f : ℂ → ℂ → ℂ) (xs ys : List ℂ) : Except SimErr (List ℂ) :=
  if xs.length = ys.length then .ok (List.zipWith f xs ys)
  else if xs.length = 1 then .ok (ys.map (f xs.headI))
  else if ys.length = 1 then .ok (xs.map (fun v => f v ys.headI))
  else .error .shapeMismatch

/-- Turn an optional array lookup into the Python behaviour: a missing
index raises `IndexError`. -/
def idx {α : Type} : Option α → Except SimErr α
  | some v => .ok v
  | none => .error .indexError

/-- `C = cos(|rf[mm]|/2)` from the source. -/
noncomputable def rfC (u : ℂ) : ℝ := Real.cos (Complex.abs u / 2)

/-- `S = 1j * exp(1j*angle(rf[mm])) * sin(|rf[mm]|/2)` from the source. -/
noncomputable def rfS (u : ℂ) : ℂ :=
  Complex.I * Complex.exp (Complex.I * u.arg) * (Real.sin (Complex.abs u / 2) : ℂ)

/-- The forward-sense RF rotation of one spinor state, §4.1 step 2 of the
spec: `a' = a·C − b·conj(S)`, `b' = a·S + b·C`.  This is also exactly the
update `at`/`bt` that the source's forward loop applies elementwise. -/
noncomputable def rfRotStep (u : ℂ) (a b : ℂ) : ℂ × ℂ :=
  (a * (rfC u : ℂ) - b * star (rfS u), a * rfS u + b * (rfC u : ℂ))

/-- Dot product `x @ v` of two real vectors (trailing dimensions).  numpy
matmul raises a shape error when the two lengths differ; this model
truncates to the common prefix instead, so it is exact only on inputs
whose trailing dimensions agree.  The theorems below stay within that
domain: statements about the multi-D error behaviour assume agreeing
trailing dimensions by hypothesis, and the remaining multi-D statements
address claims that are themselves scoped to well-shaped inputs, hold
conditionally on a successful run, or involve only length-1 rows. -/
def dot (x v : List ℝ) : ℝ := (List.zipWith (· * ·) x v).sum

/-- `xp.sum(g, 0)`: column sums of an `Nt × Ndim` array. -/
def sumCols : List (List ℝ) → List ℝ
  | [] => []
  | r :: rs => rs.foldl (fun acc row => List.zipWith (· + ·) acc row) r

/-- Gradient-phase factors of the forward loop, 1-D branch:
`z = exp(-1j * x * g[mm])` per spin (with `IndexError` past the end). -/
noncomputable def zf1 (x : List ℝ) (g : List ℝ) (mm : ℕ) : Except SimErr (List ℂ) := do
  let gt ← idx (g.get? mm)
  .ok (x.map fun (xj : ℝ) => Complex.exp (-Complex.I * (xj : ℂ) * (gt : ℂ)))

/-- Gradient-phase factors of the forward loop, multi-D branch:
`z = exp(-1j * x @ g[mm, :])` per spin. -/
noncomputable def zfN (x : List (List ℝ)) (g : List (List ℝ)) (mm : ℕ) :
    Except SimErr (List ℂ) := do
  let gt ← idx (g.get? mm)
  .ok (x.map fun xj => Complex.exp (-Complex.I * (dot xj gt : ℂ)))

/-- The forward time loop of `blochsim`: for each RF sample apply the RF
rotation to every spin, then multiply `b` by the per-spin gradient phase
`zf mm`.  `mm` is the running time index used to address the gradient. -/
noncomputable def bsLoop (zf : ℕ → Except SimErr (List ℂ)) :
    List ℂ → ℕ → List ℂ × List ℂ → Except SimErr (List ℂ × List ℂ)
  | [], _, ab => .ok ab
  | u :: rfs, mm, (a, b) =>
    let a' := List.zipWith (fun aj bj => (rfRotStep u aj bj).1) a b
    let b' := List.zipWith (fun aj bj => (rfRotStep u aj bj).2) a b
    do
      let z ← zf mm
      let b'' := List.zipWith (· * ·) b' z
      bsLoop zf rfs (mm + 1) (a', b'')

/-- The raw forward recurrence (state after the loop, before the final
half-step phase correction), 1-D branch. -/
noncomputable def blochsimPre1 (rf : List ℂ) (x : List ℝ) (g : List ℝ) :
    Except SimErr (List ℂ × List ℂ) :=
  bsLoop (zf1 x g) rf 0 (x.map fun _ => (1 : ℂ), x.map fun _ => (0 : ℂ))

/-- The raw forward recurrence, multi-D branch. -/
noncomputable def blochsimPreN (rf : List ℂ) (x : List (List ℝ)) (g : List (List ℝ)) :
    Except SimErr (List ℂ × List ℂ) :=
  bsLoop (zfN x g) rf 0 (x.map fun _ => (1 : ℂ), x.map fun _ => (0 : ℂ))

/-- `blochsim(rf, x, g)` with 1-D `x`, `g`: loop, then total phase accrual
`z = exp(1j/2 * x * sum(g))` applied to both `a` and `b`. -/
noncomputable def blochsim1 (rf : List ℂ) (x : List ℝ) (g : List ℝ) :
    Except SimErr (List ℂ × List ℂ) := do
  let (a, b) ← blochsimPre1 rf x g
  .ok (List.zipWith (· * ·) a (x.map fun (xj : ℝ) => Complex.exp (Complex.I / 2 * (xj : ℂ) * (g.sum : ℂ))),
    List.zipWith (· * ·) b (x.map fun (xj : ℝ) => Complex.exp (Complex.I / 2 * (xj : ℂ) * (g.sum : ℂ))))

/-- `blochsim(rf, x, g)` with multi-D `x`, `g`:
`z = exp(1j/2 * x @ sum(g, 0))`. -/
noncomputable def blochsimN (rf : List ℂ) (x : List (List ℝ)) (g : List (List ℝ)) :
    Except SimErr (List ℂ × List ℂ) := do
  let (a, b) ← blochsimPreN rf x g
  .ok (List.zipWith (· * ·) a (x.map fun xj => Complex.exp (Complex.I / 2 * (dot xj (sumCols g) : ℂ))),
    List.zipWith (· * ·) b (x.map fun xj => Complex.exp (Complex.I / 2 * (dot xj (sumCols g) : ℂ))))

/-- Half-magnitude gradient-phase factors of the reverse loop, 1-D branch:
`z = exp(1j/2 * x * g[mm])`. -/
noncomputable def wf1 (x : List ℝ) (g : List ℝ) (mm : ℕ) : Except SimErr (List ℂ) := do
  let gt ← idx (g.get? mm)
  .ok (x.map fun (xj : ℝ) => Complex.exp (Complex.I / 2 * (xj : ℂ) * (gt : ℂ)))

/-- Half-magnitude gradient-phase factors of the reverse loop, multi-D
branch: `z = exp(1j/2 * x @ g[mm, :])`. -/
noncomputable def wfN (x : List (List ℝ)) (g : List (List ℝ)) (mm : ℕ) :
    Except SimErr (List ℂ) := do
  let gt ← idx (g.get? mm)
  .ok (x.map fun xj => Complex.exp (Complex.I / 2 * (dot xj gt : ℂ)))

/-- The backward-accumulator RF update of `deriv`:
`art = ar*C - conj(br)*S`, `brt = br*C + conj(ar)*S` elementwise. -/
noncomputable def accumRF (u : ℂ) (ar br : List ℂ) : Except SimErr (List ℂ × List ℂ) := do
  let ar' ← ew (fun p q => p - q) (ar.map (· * (rfC u : ℂ))) (br.map fun v => star v * rfS u)
  let br' ← ew (· + ·) (br.map (· * (rfC u : ℂ))) (ar.map fun v => star v * rfS u)
  .ok (ar', br')

/-- One iteration (time index `t`) of the reverse loop of `deriv`: strip
the gradient blip and RF rotation from the forward-replay pair `(af, bf)`,
push the gradient blip onto the backward pair `(ar, br)`, form the per-step
gradient value `d`, and advance `(ar, br)` by the RF rotation.  Returns the
new `(af, bf, ar, br)` and `d`. -/
noncomputable def derivStep (zf : ℕ → Except SimErr (List ℂ)) (rf : List ℂ)
    (auxa : Option (List ℂ)) (auxb : List ℂ) (t : ℕ)
    (af bf ar br : List ℂ) :
    Except SimErr ((List ℂ × List ℂ × List ℂ × List ℂ) × ℂ) := do
  let u ← idx (rf.get? t)
  let z ← zf t
  let af ← ew (· * ·) af (z.map star)
  let bf ← ew (· * ·) bf z
  let ar ← ew (· * ·) ar z
  let br ← ew (· * ·) br z
  let af' ← ew (· + ·) (af.map (· * (rfC u : ℂ))) (bf.map (· * star (rfS u)))
  let bf' ← ew (· + ·) (af.map fun v => -(v * rfS u)) (bf.map (· * (rfC u : ℂ)))
  let t1 ← ew (· * ·) br bf'
  let db1 ← ew (· * ·) (t1.map fun v => star (Complex.I / 2 * v)) auxb
  let t2 ← ew (· * ·) (af'.map fun v => star (Complex.I / 2 * v)) ar
  let db2 ← ew (· * ·) t2 auxb
  let s0 ← ew (· + ·) db2 (db1.map star)
  let d ← match auxa with
    | none => .ok s0.sum
    | some al => do
      let t3 ← ew (· * ·) bf' ar
      let da1 ← ew (· * ·) (t3.map fun v => star (Complex.I / 2 * v)) al
      let t4 ← ew (· * ·) (af'.map fun v => Complex.I / 2 * star v) br
      let da2 ← ew (· * ·) t4 al
      let s1 ← ew (· + ·) da2 (da1.map star)
      .ok (s0.sum + s1.sum)
  let (ar', br') ← accumRF u ar br
  .ok ((af', bf', ar', br'), d)

/-- The reverse loop of `deriv`, counting the remaining fuel: `dgo _ _ _ _
(t+1)` processes index `t` first, then indices `t-1 … 0`, producing the
gradient samples in index order. -/
noncomputable def dgo (zf : ℕ → Except SimErr (List ℂ)) (rf : List ℂ)
    (auxa : Option (List ℂ)) (auxb : List ℂ) :
    ℕ → List ℂ → List ℂ → List ℂ → List ℂ → Except SimErr (List ℂ)
  | 0, _, _, _, _ => .ok []
  | t + 1, af, bf, ar, br => do
    let (st, d) ← derivStep zf rf auxa auxb t af bf ar br
    let rest ← dgo zf rf auxa auxb t st.1 st.2.1 st.2.2.1 st.2.2.2
    .ok (rest ++ [d])

/-- `deriv(rf, x, g, auxa, auxb, af, bf)`, 1-D branch: `ar` starts as ones
shaped like `af`, `br` as zeros shaped like `bf`, and the reverse loop runs
from index `size(rf) - 1` down to `0`. -/
noncomputable def deriv1 (rf : List ℂ) (x : List ℝ) (g : List ℝ)
    (auxa : Option (List ℂ)) (auxb : List ℂ) (af bf : List ℂ) :
    Except SimErr (List ℂ) :=
  dgo (wf1 x g) rf auxa auxb rf.length af bf (af.map fun _ => 1) (bf.map fun _ => 0)

/-- `deriv(rf, x, g, auxa, auxb, af, bf)`, multi-D branch. -/
noncomputable def derivN (rf : List ℂ) (x : List (List ℝ)) (g : List (List ℝ))
    (auxa : Option (List ℂ)) (auxb : List ℂ) (af bf : List ℂ) :
    Except SimErr (List ℂ) :=
  dgo (wfN x g) rf auxa auxb rf.length af bf (af.map fun _ => 1) (bf.map fun _ => 0)

/-! ### Spec-side reference recurrence (§4.1 of the spec, for claim C2) -/

/-- One time step of the reference recurrence as worded in §4.1: apply the
RF rotation `a' = a·C − b·conj(S)`, `b' = a·S + b·C`, then multiply `b` by
the gradient-induced phase `exp(−i·p)` where `p` is `position · gradient[t]`. -/
noncomputable def specStep (u : ℂ) (p : ℝ) (ab : ℂ × ℂ) : ℂ × ℂ :=
  let r := rfRotStep u ab.1 ab.2
  (r.1, r.2 * Complex.exp (-Complex.I * (p : ℝ)))

/-- Folding the reference recurrence over a list of (RF sample, phase) pairs. -/
noncomputable def spinFold (init : ℂ × ℂ) (ps : List (ℂ × ℝ)) : ℂ × ℂ :=
  ps.foldl (fun ab up => specStep up.1 up.2 ab) init

/-- The reference forward simulation of §4.1, 1-D spatial encoding, written
from the spec's words: initialize `(1, 0)` per spin, fold the per-step
recurrence, then apply `z = exp(i/2 · position · Σ_t g[t])` to both `a` and
`b`. -/
noncomputable def specForward1 (rf : List ℂ) (x : List ℝ) (g : List ℝ) :
    List ℂ × List ℂ :=
  (x.map fun xj => (spinFold (1, 0) (rf.zip (g.map fun gt => xj * gt))).1 *
      Complex.exp (Complex.I / 2 * (xj : ℂ) * (g.sum : ℂ)),
   x.map fun xj => (spinFold (1, 0) (rf.zip (g.map fun gt => xj * gt))).2 *
      Complex.exp (Complex.I / 2 * (xj : ℂ) * (g.sum : ℂ)))

/-- The reference forward simulation of §4.1, multi-dimensional encoding:
the per-step phase is the dot product `position · gradient[t]` and the final
correction uses `position · Σ_t gradient[t]`. -/
noncomputable def specForwardN (rf : List ℂ) (x : List (List ℝ)) (g : List (List ℝ)) :
    List ℂ × List ℂ :=
  (x.map fun xj => (spinFold (1, 0) (rf.zip (g.map fun gt => dot xj gt))).1 *
      Complex.exp (Complex.I / 2 * (dot xj (sumCols g) : ℂ)),
   x.map fun xj => (spinFold (1, 0) (rf.zip (g.map fun gt => dot xj gt))).2 *
      Complex.exp (Complex.I / 2 * (dot xj (sumCols g) : ℂ)))

/-! ### List helper lemmas -/

theorem zipWith_map_same {α β γ δ : Type} (f : β → γ → δ) (p : α → β) (q : α → γ) (x : List α) :
    List.zipWith f (x.map p) (x.map q) = x.map fun v => f (p v) (q v) := by
  induction x with
  | nil => rfl
  | cons a t ih => simp [ih]

theorem zipWith_zipWith_same {α β γ : Type} (h : γ → γ → γ) (f g : α → β → γ)
    (x : List α) (y : List β) :
    List.zipWith h (List.zipWith f x y) (List.zipWith g x y) =
      List.zipWith (fun a b => h (f a b) (g a b)) x y := by
  induction x generalizing y with
  | nil => rfl
  | cons a t ih => cases y with
    | nil => rfl
    | cons b s => simp [ih]

theorem ofReal_list_sum (l : List ℝ) :
    ((l.sum : ℝ) : ℂ) = (l.map fun v => (v : ℂ)).sum := by
  induction l with
  | nil => simp
  | cons a t ih => simp [ih]

@[simp] theorem except_ok_bind {ε α β : Type} (a : α) (f : α → Except ε β) :
    (Except.ok a >>= f) = f a := rfl

@[simp] theorem except_error_bind {ε α β : Type} (e : ε) (f : α → Except ε β) :
    ((Except.error e : Except ε α) >>= f) = Except.error e := rfl

/-! ### Map-form evaluation of the forward loop -/

/-- Per-spin unfolding of the forward loop: the trajectory of one spin with
per-step phase factors `P mm xj`. -/
noncomputable def spinRun {α : Type} (P : ℕ → α → ℂ) (xj : α) :
    List ℂ → ℕ → ℂ × ℂ → ℂ × ℂ
  | [], _, ab => ab
  | u :: rfs, mm, ab =>
    let r := rfRotStep u ab.1 ab.2
    spinRun P xj rfs (mm + 1) (r.1, r.2 * P mm xj)

theorem bsLoop_map {α : Type} (zf : ℕ → Except SimErr (List ℂ)) (x : List α)
    (P : ℕ → α → ℂ) (rf : List ℂ) (mm : ℕ) (A B : α → ℂ)
    (hz : ∀ k, k < rf.length → zf (mm + k) = .ok (x.map (P (mm + k)))) :
    bsLoop zf rf mm (x.map A, x.map B) =
      .ok (x.map fun xj => (spinRun P xj rf mm (A xj, B xj)).1,
           x.map fun xj => (spinRun P xj rf mm (A xj, B xj)).2) := by
  induction rf generalizing mm A B with
  | nil => rfl
  | cons u rfs ih =>
    have h0 : zf mm = .ok (x.map (P mm)) := by
      have := hz 0 (by simp)
      simpa using this
    have hz' : ∀ k, k < rfs.length → zf (mm + 1 + k) = .ok (x.map (P (mm + 1 + k))) := by
      intro k hk
      have := hz (k + 1) (by simpa using Nat.succ_lt_succ hk)
      have harith : mm + (k + 1) = mm + 1 + k := by omega
      simpa [harith] using this
    have step := ih (mm + 1)
      (fun xj => (rfRotStep u (A xj) (B xj)).1)
      (fun xj => (rfRotStep u (A xj) (B xj)).2 * P mm xj) hz'
    simp only [bsLoop, zipWith_map_same, h0, except_ok_bind]
    rw [step]
    simp [spinRun]

theorem get?_eq_some_getD {β : Type} (l : List β) (n : ℕ) (d : β) (h : n < l.length) :
    l.get? n = some (l.getD n d) := by
  rw [List.get?_eq_getElem?, List.getElem?_eq_getElem h, List.getD_eq_getElem l d h]

theorem range_map_getD {β : Type} (l : List β) (d : β) :
    (List.range l.length).map (fun k => l.getD k d) = l := by
  induction l with
  | nil => rfl
  | cons a t ih =>
    simp only [List.length_cons, List.range_succ_eq_map, List.map_cons, List.map_map]
    exact congrArg (a :: ·) ih

theorem spinRun_eq_spinFold {α : Type} (p : ℕ → ℝ) (xj : α) (rf : List ℂ)
    (mm : ℕ) (ab : ℂ × ℂ) :
    spinRun (fun k _ => Complex.exp (-Complex.I * ((p k : ℝ) : ℂ))) xj rf mm ab =
      spinFold ab (rf.zip ((List.range rf.length).map fun k => p (mm + k))) := by
  induction rf generalizing mm ab with
  | nil => rfl
  | cons u rfs ih =>
    simp only [spinRun, List.length_cons, List.range_succ_eq_map, List.map_cons,
      List.map_map, List.zip_cons_cons, spinFold, List.foldl_cons]
    rw [show (fun k => p (mm + k)) ∘ Nat.succ = fun k => p (mm + 1 + k) by
      funext k; simp [Function.comp]; ring_nf]
    rw [show (List.foldl (fun ab up => specStep up.1 up.2 ab)
        (specStep u (p (mm + 0)) ab)
        (rfs.zip ((List.range rfs.length).map fun k => p (mm + 1 + k)))) =
        spinFold (specStep u (p (mm + 0)) ab)
        (rfs.zip ((List.range rfs.length).map fun k => p (mm + 1 + k))) from rfl]
    rw [← ih (mm + 1)]
    simp [specStep]

theorem spinRun_congr {α : Type} (P Q : ℕ → α → ℂ) (xj : α)
    (h : ∀ k, P k xj = Q k xj) :
    ∀ (rf : List ℂ) (mm : ℕ) (ab : ℂ × ℂ),
      spinRun P xj rf mm ab = spinRun Q xj rf mm ab := by
  intro rf
  induction rf with
  | nil => intro mm ab; rfl
  | cons u rfs ih =>
    intro mm ab
    simp only [spinRun, h mm]
    exact ih (mm + 1) _

/-- The per-spin trajectory of the 1-D forward loop agrees with the §4.1
reference fold over the zipped (RF, phase) pairs. -/
theorem spinRun1_eq_fold (g1 : List ℝ) (rf : List ℂ) (xj : ℝ) (ab : ℂ × ℂ)
    (h1 : g1.length = rf.length) :
    spinRun (fun k (v : ℝ) => Complex.exp (-Complex.I * (v : ℂ) * ((g1.getD k 0 : ℝ) : ℂ)))
      xj rf 0 ab = spinFold ab (rf.zip (g1.map fun gt => xj * gt)) := by
  rw [spinRun_congr _ (fun k (_ : ℝ) => Complex.exp (-Complex.I * ((xj * g1.getD k 0 : ℝ) : ℂ)))
    xj (fun k => by push_cast; ring_nf) rf 0 ab]
  rw [spinRun_eq_spinFold (fun k => xj * g1.getD k 0) xj rf 0 ab]
  have hr : ((List.range rf.length).map fun k => xj * g1.getD (0 + k) 0) =
      g1.map fun gt => xj * gt := by
    have hc : ((List.range g1.length).map fun k => g1.getD k 0).map (fun gt => xj * gt) =
        (List.range g1.length).map fun k => xj * g1.getD (0 + k) 0 := by
      rw [List.map_map]
      exact List.map_congr_left (fun k _ => by simp)
    rw [h1] at hc
    rw [← hc, ← h1, range_map_getD]
  rw [hr]

/-- The per-spin trajectory of the multi-D forward loop agrees with the
§4.1 reference fold. -/
theorem spinRunN_eq_fold (gN : List (List ℝ)) (rf : List ℂ) (xj : List ℝ) (ab : ℂ × ℂ)
    (hN : gN.length = rf.length) :
    spinRun (fun k (v : List ℝ) => Complex.exp (-Complex.I * ((dot v (gN.getD k []) : ℝ) : ℂ)))
      xj rf 0 ab = spinFold ab (rf.zip (gN.map fun gt => dot xj gt)) := by
  rw [spinRun_congr _ (fun k (_ : List ℝ) => Complex.exp (-Complex.I * ((dot xj (gN.getD k []) : ℝ) : ℂ)))
    xj (fun k => rfl) rf 0 ab]
  rw [spinRun_eq_spinFold (fun k => dot xj (gN.getD k [])) xj rf 0 ab]
  have hr : ((List.range rf.length).map fun k => dot xj (gN.getD (0 + k) [])) =
      gN.map fun gt => dot xj gt := by
    have hc : ((List.range gN.length).map fun k => gN.getD k []).map (fun gt => dot xj gt) =
        (List.range gN.length).map fun k => dot xj (gN.getD (0 + k) []) := by
      rw [List.map_map]
      exact List.map_congr_left (fun k _ => by simp)
    rw [hN] at hc
    rw [← hc, ← hN, range_map_getD]
  rw [hr]

/-- C2: `blochsim` computes exactly the reference recurrence of §4.1, in
both the 1-D (scalar product) and multi-D (dot product) branches, whenever
the gradient has one step per RF sample. -/
theorem blochsim_matches_spec (rf : List ℂ) (x1 g1 : List ℝ)
    (xN gN : List (List ℝ)) (h1 : g1.length = rf.length) (hN : gN.length = rf.length) :
    blochsim1 rf x1 g1 = .ok (specForward1 rf x1 g1) ∧
    blochsimN rf xN gN = .ok (specForwardN rf xN gN) := by
  constructor
  · have hpre := bsLoop_map (zf1 x1 g1) x1
      (fun k v => Complex.exp (-Complex.I * (v : ℂ) * ((g1.getD k 0 : ℝ) : ℂ)))
      rf 0 (fun _ => 1) (fun _ => 0)
      (by
        intro k _
        unfold zf1
        rw [get?_eq_some_getD g1 (0 + k) 0 (by omega)]
        rfl)
    unfold blochsim1 blochsimPre1
    rw [hpre]
    simp only [except_ok_bind, zipWith_map_same]
    unfold specForward1
    refine congrArg Except.ok (Prod.ext ?_ ?_) <;>
      exact congrArg (x1.map ·) (funext fun xj => by
        rw [spinRun1_eq_fold g1 rf xj (1, 0) h1])
  · have hpre := bsLoop_map (zfN xN gN) xN
      (fun k v => Complex.exp (-Complex.I * ((dot v (gN.getD k []) : ℝ) : ℂ)))
      rf 0 (fun _ => 1) (fun _ => 0)
      (by
        intro k _
        unfold zfN
        rw [get?_eq_some_getD gN (0 + k) [] (by omega)]
        rfl)
    unfold blochsimN blochsimPreN
    rw [hpre]
    simp only [except_ok_bind, zipWith_map_same]
    unfold specForwardN
    refine congrArg Except.ok (Prod.ext ?_ ?_) <;>
      exact congrArg (xN.map ·) (funext fun xj => by
        rw [spinRunN_eq_fold gN rf xj (1, 0) hN])

/-! ### Scalar facts about the rotation coefficients -/

theorem rfC_zero : rfC 0 = 1 := by
  simp [rfC]

theorem rfS_zero : rfS 0 = 0 := by
  simp [rfS]

theorem rfRotStep_zero (a b : ℂ) : rfRotStep 0 a b = (a, b) := by
  simp [rfRotStep, rfC_zero, rfS_zero]

theorem normSq_exp_of_re_eq_zero (c : ℂ) (h : c.re = 0) :
    Complex.normSq (Complex.exp c) = 1 := by
  rw [← Complex.sq_abs, Complex.abs_exp, h, Real.exp_zero, one_pow]

theorem normSq_exp_neg_I_mul (r w : ℝ) :
    Complex.normSq (Complex.exp (-Complex.I * (r : ℂ) * (w : ℂ))) = 1 := by
  apply normSq_exp_of_re_eq_zero
  simp [Complex.mul_re]

theorem normSq_exp_I_div_two_mul (r w : ℝ) :
    Complex.normSq (Complex.exp (Complex.I / 2 * (r : ℂ) * (w : ℂ))) = 1 := by
  apply normSq_exp_of_re_eq_zero
  simp [Complex.mul_re, Complex.div_re, Complex.div_im]

theorem normSq_exp_neg_I_ofReal (w : ℝ) :
    Complex.normSq (Complex.exp (-Complex.I * (w : ℂ))) = 1 := by
  apply normSq_exp_of_re_eq_zero
  simp [Complex.mul_re]

theorem normSq_exp_I_div_two_ofReal (w : ℝ) :
    Complex.normSq (Complex.exp (Complex.I / 2 * (w : ℂ))) = 1 := by
  apply normSq_exp_of_re_eq_zero
  simp [Complex.mul_re, Complex.div_re, Complex.div_im]

/-- `C² + |S|² = 1`: the rotation coefficients lie on the unit sphere. -/
theorem rfC_sq_add_normSq_rfS (u : ℂ) : rfC u ^ 2 + Complex.normSq (rfS u) = 1 := by
  unfold rfC rfS
  have h1 : Complex.normSq (Complex.I * Complex.exp (Complex.I * (u.arg : ℂ)) *
      ((Real.sin (Complex.abs u / 2) : ℝ) : ℂ)) = Real.sin (Complex.abs u / 2) ^ 2 := by
    rw [map_mul, map_mul]
    rw [Complex.normSq_I, normSq_exp_of_re_eq_zero _ (by simp [Complex.mul_re]),
      Complex.normSq_ofReal]
    ring
  rw [h1]
  rw [add_comm]
  exact Real.sin_sq_add_cos_sq (Complex.abs u / 2)

/-- The forward RF rotation preserves the spinor norm exactly. -/
theorem rfRotStep_normSq (u a b : ℂ) :
    Complex.normSq (rfRotStep u a b).1 + Complex.normSq (rfRotStep u a b).2 =
      Complex.normSq a + Complex.normSq b := by
  have key : Complex.normSq (rfRotStep u a b).1 + Complex.normSq (rfRotStep u a b).2 =
      (Complex.normSq a + Complex.normSq b) * (rfC u ^ 2 + Complex.normSq (rfS u)) := by
    simp only [rfRotStep, Complex.normSq_apply, Complex.sub_re, Complex.sub_im,
      Complex.add_re, Complex.add_im, Complex.mul_re, Complex.mul_im,
      Complex.ofReal_re, Complex.ofReal_im, Complex.star_def, Complex.conj_re,
      Complex.conj_im]
    ring
  rw [key, rfC_sq_add_normSq_rfS, mul_one]

/-- Norm preservation along a per-spin forward trajectory, provided every
phase factor has unit modulus. -/
theorem spinRun_normSq {α : Type} (P : ℕ → α → ℂ) (xj : α)
    (hP : ∀ k, Complex.normSq (P k xj) = 1) :
    ∀ (rf : List ℂ) (mm : ℕ) (ab : ℂ × ℂ),
      Complex.normSq ab.1 + Complex.normSq ab.2 = 1 →
      Complex.normSq (spinRun P xj rf mm ab).1 +
        Complex.normSq (spinRun P xj rf mm ab).2 = 1 := by
  intro rf
  induction rf with
  | nil => intro mm ab h; exact h
  | cons u rfs ih =>
    intro mm ab h
    simp only [spinRun]
    apply ih (mm + 1)
    simp only [map_mul, hP mm, mul_one]
    rw [rfRotStep_normSq]
    exact h

/-- A successful run of the forward loop implies every phase lookup it
performed succeeded. -/
theorem bsLoop_ok_zf (zf : ℕ → Except SimErr (List ℂ)) :
    ∀ (rf : List ℂ) (mm : ℕ) (st : List ℂ × List ℂ) (ab : List ℂ × List ℂ),
      bsLoop zf rf mm st = .ok ab →
      ∀ k, k < rf.length → ∃ zs, zf (mm + k) = .ok zs := by
  intro rf
  induction rf with
  | nil => intro mm st ab _ k hk; exact absurd hk (by simp)
  | cons u rfs ih =>
    intro mm st ab hrun k hk
    obtain ⟨a, b⟩ := st
    simp only [bsLoop] at hrun
    cases hz : zf mm with
    | error e => rw [hz] at hrun; simp at hrun
    | ok zs =>
      rw [hz] at hrun
      simp only [except_ok_bind] at hrun
      cases k with
      | zero => exact ⟨zs, by simpa using hz⟩
      | succ k' =>
        have := ih (mm + 1) _ ab hrun k' (by simpa using Nat.lt_of_succ_lt_succ hk)
        obtain ⟨zs', hzs'⟩ := this
        exact ⟨zs', by rw [show mm + (k' + 1) = mm + 1 + k' by omega]; exact hzs'⟩

/-- If the 1-D phase function succeeds at `mm` it returns the canonical
map-form list of unit phases. -/
theorem zf1_ok_form (x g : List ℝ) (mm : ℕ) (zs : List ℂ)
    (h : zf1 x g mm = .ok zs) :
    mm < g.length ∧
      zf1 x g mm = .ok (x.map fun (xj : ℝ) =>
        Complex.exp (-Complex.I * (xj : ℂ) * ((g.getD mm 0 : ℝ) : ℂ))) := by
  unfold zf1 at h ⊢
  cases hg : g.get? mm with
  | none => rw [hg] at h; simp [idx] at h
  | some gt =>
    have hlt : mm < g.length := by
      by_contra hge
      rw [List.get?_eq_none.mpr (by omega)] at hg
      exact Option.noConfusion hg
    have hgd : gt = g.getD mm 0 := by
      have hh := get?_eq_some_getD g mm 0 hlt
      rw [hg] at hh
      exact Option.some.inj hh
    refine ⟨hlt, ?_⟩
    simp only [idx, except_ok_bind]
    rw [hgd]

/-- If the multi-D phase function succeeds at `mm` it returns the canonical
map-form list of unit phases. -/
theorem zfN_ok_form (x : List (List ℝ)) (g : List (List ℝ)) (mm : ℕ) (zs : List ℂ)
    (h : zfN x g mm = .ok zs) :
    mm < g.length ∧
      zfN x g mm = .ok (x.map fun xj =>
        Complex.exp (-Complex.I * ((dot xj (g.getD mm []) : ℝ) : ℂ))) := by
  unfold zfN at h ⊢
  cases hg : g.get? mm with
  | none => rw [hg] at h; simp [idx] at h
  | some gt =>
    have hlt : mm < g.length := by
      by_contra hge
      rw [List.get?_eq_none.mpr (by omega)] at hg
      exact Option.noConfusion hg
    have hgd : gt = g.getD mm [] := by
      have hh := get?_eq_some_getD g mm [] hlt
      rw [hg] at hh
      exact Option.some.inj hh
    refine ⟨hlt, ?_⟩
    simp only [idx, except_ok_bind]
    rw [hgd]

/-- A successful 1-D forward-loop run from the identity initialization is in
map form: each spin's state is its `spinRun` trajectory. -/
theorem loop1_state_form (x1 g1 : List ℝ) (rf' : List ℂ) (ab : List ℂ × List ℂ)
    (h : bsLoop (zf1 x1 g1) rf' 0 (x1.map fun _ => 1, x1.map fun _ => 0) = .ok ab) :
    ab = (x1.map fun xj =>
        (spinRun (fun k (v : ℝ) => Complex.exp (-Complex.I * (v : ℂ) * ((g1.getD k 0 : ℝ) : ℂ)))
          xj rf' 0 (1, 0)).1,
      x1.map fun xj =>
        (spinRun (fun k (v : ℝ) => Complex.exp (-Complex.I * (v : ℂ) * ((g1.getD k 0 : ℝ) : ℂ)))
          xj rf' 0 (1, 0)).2) := by
  have hzk : ∀ k, k < rf'.length → zf1 x1 g1 (0 + k) =
      .ok (x1.map fun (xj : ℝ) =>
        Complex.exp (-Complex.I * (xj : ℂ) * ((g1.getD (0 + k) 0 : ℝ) : ℂ))) := by
    intro k hk
    obtain ⟨zs, hzs⟩ := bsLoop_ok_zf (zf1 x1 g1) rf' 0 _ _ h k hk
    exact (zf1_ok_form x1 g1 (0 + k) zs hzs).2
  have hmap := bsLoop_map (zf1 x1 g1) x1
    (fun k (v : ℝ) => Complex.exp (-Complex.I * (v : ℂ) * ((g1.getD k 0 : ℝ) : ℂ)))
    rf' 0 (fun _ => 1) (fun _ => 0) hzk
  rw [hmap] at h
  exact (Except.ok.inj h).symm

/-- A successful multi-D forward-loop run from the identity initialization
is in map form. -/
theorem loopN_state_form (xN gN : List (List ℝ)) (rf' : List ℂ) (ab : List ℂ × List ℂ)
    (h : bsLoop (zfN xN gN) rf' 0 (xN.map fun _ => 1, xN.map fun _ => 0) = .ok ab) :
    ab = (xN.map fun xj =>
        (spinRun (fun k (v : List ℝ) =>
            Complex.exp (-Complex.I * ((dot v (gN.getD k []) : ℝ) : ℂ))) xj rf' 0 (1, 0)).1,
      xN.map fun xj =>
        (spinRun (fun k (v : List ℝ) =>
            Complex.exp (-Complex.I * ((dot v (gN.getD k []) : ℝ) : ℂ))) xj rf' 0 (1, 0)).2) := by
  have hzk : ∀ k, k < rf'.length → zfN xN gN (0 + k) =
      .ok (xN.map fun xj =>
        Complex.exp (-Complex.I * ((dot xj (gN.getD (0 + k) []) : ℝ) : ℂ))) := by
    intro k hk
    obtain ⟨zs, hzs⟩ := bsLoop_ok_zf (zfN xN gN) rf' 0 _ _ h k hk
    exact (zfN_ok_form xN gN (0 + k) zs hzs).2
  have hmap := bsLoop_map (zfN xN gN) xN
    (fun k (v : List ℝ) => Complex.exp (-Complex.I * ((dot v (gN.getD k []) : ℝ) : ℂ)))
    rf' 0 (fun _ => 1) (fun _ => 0) hzk
  rw [hmap] at h
  exact (Except.ok.inj h).symm

/-- C3: unitarity.  In both branches, every intermediate state of the
forward recurrence (the loop run on any prefix `rf.take t` of the pulse)
and the final corrected state satisfy `|a|² + |b|² = 1` for every spin,
exactly, starting from the identity initialization. -/
theorem blochsim_unitarity (rf : List ℂ) (x1 g1 : List ℝ) (xN gN : List (List ℝ)) :
    (∀ (t : ℕ) (a b : List ℂ),
      bsLoop (zf1 x1 g1) (rf.take t) 0 (x1.map fun _ => 1, x1.map fun _ => 0) = .ok (a, b) →
      ∀ p ∈ List.zipWith (fun aj bj => Complex.normSq aj + Complex.normSq bj) a b, p = 1) ∧
    (∀ a b : List ℂ, blochsim1 rf x1 g1 = .ok (a, b) →
      ∀ p ∈ List.zipWith (fun aj bj => Complex.normSq aj + Complex.normSq bj) a b, p = 1) ∧
    (∀ (t : ℕ) (a b : List ℂ),
      bsLoop (zfN xN gN) (rf.take t) 0 (xN.map fun _ => 1, xN.map fun _ => 0) = .ok (a, b) →
      ∀ p ∈ List.zipWith (fun aj bj => Complex.normSq aj + Complex.normSq bj) a b, p = 1) ∧
    (∀ a b : List ℂ, blochsimN rf xN gN = .ok (a, b) →
      ∀ p ∈ List.zipWith (fun aj bj => Complex.normSq aj + Complex.normSq bj) a b, p = 1) := by
  refine ⟨?_, ?_, ?_, ?_⟩
  · intro t a b h
    have hform := loop1_state_form x1 g1 (rf.take t) (a, b) h
    obtain ⟨ha, hb⟩ := Prod.mk.injEq .. ▸ hform
    rw [ha, hb, zipWith_map_same]
    intro p hp
    obtain ⟨xj, _, rfl⟩ := List.mem_map.mp hp
    exact spinRun_normSq _ xj (fun k => normSq_exp_neg_I_mul xj _) _ 0 (1, 0) (by simp)
  · intro a b h
    unfold blochsim1 at h
    cases hpre : blochsimPre1 rf x1 g1 with
    | error e => rw [hpre] at h; exact absurd h (by simp)
    | ok ab0 =>
      rw [hpre] at h
      obtain ⟨a0, b0⟩ := ab0
      simp only [except_ok_bind] at h
      have h2 := Except.ok.inj h
      have ha : a = List.zipWith (· * ·) a0
          (x1.map fun (xj : ℝ) =>
            Complex.exp (Complex.I / 2 * (xj : ℂ) * (g1.sum : ℂ))) :=
        (congrArg Prod.fst h2).symm
      have hb : b = List.zipWith (· * ·) b0
          (x1.map fun (xj : ℝ) =>
            Complex.exp (Complex.I / 2 * (xj : ℂ) * (g1.sum : ℂ))) :=
        (congrArg Prod.snd h2).symm
      have hform := loop1_state_form x1 g1 rf (a0, b0) hpre
      obtain ⟨ha0, hb0⟩ := Prod.mk.injEq .. ▸ hform
      rw [ha, hb, ha0, hb0, zipWith_map_same, zipWith_map_same, zipWith_map_same]
      intro p hp
      obtain ⟨xj, _, rfl⟩ := List.mem_map.mp hp
      simp only [map_mul]
      rw [normSq_exp_I_div_two_mul]
      have hs := spinRun_normSq
        (fun k (v : ℝ) => Complex.exp (-Complex.I * (v : ℂ) * ((g1.getD k 0 : ℝ) : ℂ)))
        xj (fun k => normSq_exp_neg_I_mul xj _) rf 0 (1, 0) (by simp)
      nlinarith [hs]
  · intro t a b h
    have hform := loopN_state_form xN gN (rf.take t) (a, b) h
    obtain ⟨ha, hb⟩ := Prod.mk.injEq .. ▸ hform
    rw [ha, hb, zipWith_map_same]
    intro p hp
    obtain ⟨xj, _, rfl⟩ := List.mem_map.mp hp
    exact spinRun_normSq _ xj (fun k => normSq_exp_neg_I_ofReal _) _ 0 (1, 0) (by simp)
  · intro a b h
    unfold blochsimN at h
    cases hpre : blochsimPreN rf xN gN with
    | error e => rw [hpre] at h; exact absurd h (by simp)
    | ok ab0 =>
      rw [hpre] at h
      obtain ⟨a0, b0⟩ := ab0
      simp only [except_ok_bind] at h
      have h2 := Except.ok.inj h
      have ha : a = List.zipWith (· * ·) a0
          (xN.map fun xj =>
            Complex.exp (Complex.I / 2 * ((dot xj (sumCols gN) : ℝ) : ℂ))) :=
        (congrArg Prod.fst h2).symm
      have hb : b = List.zipWith (· * ·) b0
          (xN.map fun xj =>
            Complex.exp (Complex.I / 2 * ((dot xj (sumCols gN) : ℝ) : ℂ))) :=
        (congrArg Prod.snd h2).symm
      have hform := loopN_state_form xN gN rf (a0, b0) hpre
      obtain ⟨ha0, hb0⟩ := Prod.mk.injEq .. ▸ hform
      rw [ha, hb, ha0, hb0, zipWith_map_same, zipWith_map_same, zipWith_map_same]
      intro p hp
      obtain ⟨xj, _, rfl⟩ := List.mem_map.mp hp
      simp only [map_mul]
      rw [normSq_exp_I_div_two_ofReal]
      have hs := spinRun_normSq
        (fun k (v : List ℝ) => Complex.exp (-Complex.I * ((dot v (gN.getD k []) : ℝ) : ℂ)))
        xj (fun k => normSq_exp_neg_I_ofReal _) rf 0 (1, 0) (by simp)
      nlinarith [hs]

/-- With a zero RF sample every rotation is the identity, so a per-spin
trajectory starting with `b = 0` keeps `a` unchanged and `b = 0`. -/
theorem spinRun_zero_rf {α : Type} (P : ℕ → α → ℂ) (xj : α) :
    ∀ (n mm : ℕ) (a : ℂ), spinRun P xj (List.replicate n 0) mm (a, 0) = (a, 0) := by
  intro n
  induction n with
  | zero => intro mm a; rfl
  | succ n ih =>
    intro mm a
    rw [List.replicate_succ]
    show spinRun P xj (0 :: List.replicate n 0) mm (a, 0) = (a, 0)
    simp only [spinRun, rfRotStep_zero, zero_mul]
    exact ih (mm + 1) a

/-- C7: zero-pulse identity.  If the RF waveform is identically zero then
`blochsim` returns `b = 0` for every spin and `a` equal to the pure
gradient-accrual phase `exp(i/2 · x · Σ_t g[t])` (1-D branch) or
`exp(i/2 · x · Σ_t g[t])` with the dot product (multi-D branch). -/
theorem blochsim_zero_pulse (n : ℕ) (x1 g1 : List ℝ) (xN gN : List (List ℝ))
    (h1 : g1.length = n) (hN : gN.length = n) :
    blochsim1 (List.replicate n 0) x1 g1 =
      .ok (x1.map fun (xj : ℝ) => Complex.exp (Complex.I / 2 * (xj : ℂ) * (g1.sum : ℂ)),
        x1.map fun _ => 0) ∧
    blochsimN (List.replicate n 0) xN gN =
      .ok (xN.map fun xj => Complex.exp (Complex.I / 2 * ((dot xj (sumCols gN) : ℝ) : ℂ)),
        xN.map fun _ => 0) := by
  constructor
  · have hmap := bsLoop_map (zf1 x1 g1) x1
      (fun k (v : ℝ) => Complex.exp (-Complex.I * (v : ℂ) * ((g1.getD k 0 : ℝ) : ℂ)))
      (List.replicate n 0) 0 (fun _ => 1) (fun _ => 0)
      (by
        intro k hk
        unfold zf1
        rw [get?_eq_some_getD g1 (0 + k) 0 (by simp at hk; omega)]
        rfl)
    unfold blochsim1 blochsimPre1
    rw [hmap]
    simp only [except_ok_bind, zipWith_map_same]
    refine congrArg Except.ok (Prod.ext ?_ ?_) <;>
      exact List.map_congr_left fun xj _ => by
        simp only [spinRun_zero_rf, one_mul, zero_mul]
  · have hmap := bsLoop_map (zfN xN gN) xN
      (fun k (v : List ℝ) => Complex.exp (-Complex.I * ((dot v (gN.getD k []) : ℝ) : ℂ)))
      (List.replicate n 0) 0 (fun _ => 1) (fun _ => 0)
      (by
        intro k hk
        unfold zfN
        rw [get?_eq_some_getD gN (0 + k) [] (by simp at hk; omega)]
        rfl)
    unfold blochsimN blochsimPreN
    rw [hmap]
    simp only [except_ok_bind, zipWith_map_same]
    refine congrArg Except.ok (Prod.ext ?_ ?_) <;>
      exact List.map_congr_left fun xj _ => by
        simp only [spinRun_zero_rf, one_mul, zero_mul]

/-! ### Claim C4: the backward-accumulator RF update -/

/-- The SU(2) matrix with Cayley–Klein parameters `(a, b)`. -/
noncomputable def su2 (a b : ℂ) : Matrix (Fin 2) (Fin 2) ℂ :=
  !![a, -star b; b, star a]

/-- The SU(2) matrix of one RF-rotation step. -/
noncomputable def rfMat (u : ℂ) : Matrix (Fin 2) (Fin 2) ℂ :=
  !![(rfC u : ℂ), -star (rfS u); rfS u, (rfC u : ℂ)]

/-- C4 (amended): the update `deriv` applies to the backward accumulator is
`art = ar·C − conj(br)·S`, `brt = br·C + conj(ar)·S`, which composes the
accumulated rotation with the step rotation on the right:
`M(art, brt) = M(ar, br) · Q(rf[t])` in Cayley–Klein form.  It is not the
forward-sense state update of §4.1 step 2. -/
theorem accumRF_is_right_composition (u a b : ℂ) :
    accumRF u [a] [b] =
      .ok ([a * (rfC u : ℂ) - star b * rfS u], [b * (rfC u : ℂ) + star a * rfS u]) ∧
    su2 (a * (rfC u : ℂ) - star b * rfS u) (b * (rfC u : ℂ) + star a * rfS u) =
      su2 a b * rfMat u := by
  constructor
  · rfl
  · funext i j
    fin_cases i <;> fin_cases j <;>
      simp [su2, rfMat, Matrix.mul_apply, Fin.sum_univ_two, Complex.star_def, map_mul, map_sub,
        map_add, Complex.conj_conj, Complex.conj_ofReal] <;> ring

theorem rfC_pi : rfC (Real.pi : ℂ) = 0 := by
  unfold rfC
  rw [Complex.abs_ofReal, abs_of_pos Real.pi_pos, Real.cos_pi_div_two]

theorem rfS_pi : rfS (Real.pi : ℂ) = Complex.I := by
  unfold rfS
  rw [Complex.arg_ofReal_of_nonneg Real.pi_pos.le]
  simp [Real.sin_pi_div_two, Complex.abs_ofReal, abs_of_pos Real.pi_pos]

/-- C4 counterexample: at `rf[t] = π` and accumulator value `(ar, br) =
(i, 0)`, the code's update yields `brt = 1`, while the claimed forward-sense
rule `br' = ar·S + br·C` yields `−1`. -/
theorem accumRF_not_forward_rule :
    accumRF (Real.pi : ℂ) [Complex.I] [0] = .ok ([0], [1]) ∧
    (rfRotStep (Real.pi : ℂ) Complex.I 0).2 = -1 ∧ (1 : ℂ) ≠ -1 := by
  refine ⟨?_, ?_, ?_⟩
  · unfold accumRF
    rw [show ([Complex.I].map (· * (rfC (Real.pi : ℂ) : ℂ))) = [Complex.I * (rfC (Real.pi : ℂ) : ℂ)] from rfl]
    simp [ew, rfC_pi, rfS_pi]
  · simp [rfRotStep, rfC_pi, rfS_pi, Complex.I_mul_I]
  · intro h
    have : (2 : ℂ) = 0 := by linear_combination h
    norm_num at this

/-! ### Claim C5: `blochsim` performs no entry validation -/

theorem zf1_ok_of_lt (x g : List ℝ) (mm : ℕ) (h : mm < g.length) :
    zf1 x g mm = .ok (x.map fun (xj : ℝ) =>
      Complex.exp (-Complex.I * (xj : ℂ) * ((g.getD mm 0 : ℝ) : ℂ))) := by
  unfold zf1
  rw [get?_eq_some_getD g mm 0 h]
  rfl

theorem zfN_ok_of_lt (x g : List (List ℝ)) (mm : ℕ) (h : mm < g.length) :
    zfN x g mm = .ok (x.map fun xj =>
      Complex.exp (-Complex.I * ((dot xj (g.getD mm []) : ℝ) : ℂ))) := by
  unfold zfN
  rw [get?_eq_some_getD g mm [] h]
  rfl

/-- When the loop reaches a time index past the end of the gradient, it
raises an index error (1-D branch). -/
theorem bsLoop1_error (x g : List ℝ) :
    ∀ (u : ℂ) (rfs : List ℂ) (mm : ℕ) (st : List ℂ × List ℂ),
      g.length < mm + (u :: rfs).length →
      bsLoop (zf1 x g) (u :: rfs) mm st = .error .indexError := by
  intro u rfs
  induction rfs generalizing u with
  | nil =>
    intro mm st hlen
    obtain ⟨a, b⟩ := st
    simp only [bsLoop]
    have hg : g.get? mm = none := List.get?_eq_none.mpr (by simp at hlen; omega)
    unfold zf1
    rw [hg]
    rfl
  | cons u2 rfs2 ih =>
    intro mm st hlen
    obtain ⟨a, b⟩ := st
    rw [bsLoop]
    rcases Nat.lt_or_ge mm g.length with hlt | hge
    · rw [zf1_ok_of_lt x g mm hlt]
      simp only [except_ok_bind]
      exact ih u2 (mm + 1) _ (by simp at hlen ⊢; omega)
    · have hg : g.get? mm = none := List.get?_eq_none.mpr hge
      unfold zf1
      rw [hg]
      rfl

/-- Same for the multi-D branch. -/
theorem bsLoopN_error (x g : List (List ℝ)) :
    ∀ (u : ℂ) (rfs : List ℂ) (mm : ℕ) (st : List ℂ × List ℂ),
      g.length < mm + (u :: rfs).length →
      bsLoop (zfN x g) (u :: rfs) mm st = .error .indexError := by
  intro u rfs
  induction rfs generalizing u with
  | nil =>
    intro mm st hlen
    obtain ⟨a, b⟩ := st
    simp only [bsLoop]
    have hg : g.get? mm = none := List.get?_eq_none.mpr (by simp at hlen; omega)
    unfold zfN
    rw [hg]
    rfl
  | cons u2 rfs2 ih =>
    intro mm st hlen
    obtain ⟨a, b⟩ := st
    rw [bsLoop]
    rcases Nat.lt_or_ge mm g.length with hlt | hge
    · rw [zfN_ok_of_lt x g mm hlt]
      simp only [except_ok_bind]
      exact ih u2 (mm + 1) _ (by simp at hlen ⊢; omega)
    · have hg : g.get? mm = none := List.get?_eq_none.mpr hge
      unfold zfN
      rw [hg]
      rfl

/-- C5 (amended): `blochsim` performs no shape validation at call entry.
In the 1-D branch, and in the multi-D branch on inputs whose spatial
trailing dimensions agree (so that every `x @ g[mm, :]` the loop executes
is well-shaped): if the gradient has at least as many steps as the RF
waveform the call succeeds (extra gradient steps are ignored by the loop,
though they do enter the final phase sum); if it has fewer, the loop
raises an index error only when it reaches the end of the gradient, after
the earlier steps have already been computed. -/
theorem blochsim_no_entry_validation :
    (∀ (rf : List ℂ) (x1 g1 : List ℝ), rf.length ≤ g1.length →
      ∃ ab, blochsim1 rf x1 g1 = .ok ab) ∧
    (∀ (rf : List ℂ) (x1 g1 : List ℝ), g1.length < rf.length →
      blochsim1 rf x1 g1 = .error .indexError) ∧
    (∀ (rf : List ℂ) (xN gN : List (List ℝ)),
      (∀ xj ∈ xN, ∀ gm ∈ gN, xj.length = gm.length) → rf.length ≤ gN.length →
      ∃ ab, blochsimN rf xN gN = .ok ab) ∧
    (∀ (rf : List ℂ) (xN gN : List (List ℝ)),
      (∀ xj ∈ xN, ∀ gm ∈ gN, xj.length = gm.length) → gN.length < rf.length →
      blochsimN rf xN gN = .error .indexError) := by
  refine ⟨?_, ?_, ?_, ?_⟩
  · intro rf x1 g1 hlen
    have hmap := bsLoop_map (zf1 x1 g1) x1
      (fun k (v : ℝ) => Complex.exp (-Complex.I * (v : ℂ) * ((g1.getD k 0 : ℝ) : ℂ)))
      rf 0 (fun _ => 1) (fun _ => 0)
      (fun k hk => zf1_ok_of_lt x1 g1 (0 + k) (by omega))
    unfold blochsim1 blochsimPre1
    rw [hmap]
    exact ⟨_, rfl⟩
  · intro rf x1 g1 hlen
    cases rf with
    | nil => simp at hlen
    | cons u rfs =>
      unfold blochsim1 blochsimPre1
      rw [bsLoop1_error x1 g1 u rfs 0 _ (by simpa using hlen)]
      rfl
  · intro rf xN gN _hdim hlen
    have hmap := bsLoop_map (zfN xN gN) xN
      (fun k (v : List ℝ) => Complex.exp (-Complex.I * ((dot v (gN.getD k []) : ℝ) : ℂ)))
      rf 0 (fun _ => 1) (fun _ => 0)
      (fun k hk => zfN_ok_of_lt xN gN (0 + k) (by omega))
    unfold blochsimN blochsimPreN
    rw [hmap]
    exact ⟨_, rfl⟩
  · intro rf xN gN _hdim hlen
    cases rf with
    | nil => simp at hlen
    | cons u rfs =>
      unfold blochsimN blochsimPreN
      rw [bsLoopN_error xN gN u rfs 0 _ (by simpa using hlen)]
      rfl

/-- C5 counterexample: a call with `len(g) = 2 ≠ 1 = len(rf)` completes
without raising any error, so no ShapeMismatch is detected at entry. -/
theorem blochsim_length_mismatch_no_error :
    blochsim1 [0] [0] [0, 1] = .ok ([1], [0]) := by
  unfold blochsim1 blochsimPre1 bsLoop
  rw [zf1_ok_of_lt [0] [0, 1] 0 (by norm_num)]
  simp [bsLoop, rfRotStep_zero, idx, List.sum_cons]

/-! ### Claim C6: `deriv` performs no entry validation of aux shapes -/

/-- C6 (amended): `deriv` does not validate the shapes of `auxb`/`auxa` at
call entry.  With an empty RF waveform the reverse loop never runs and the
call returns an empty gradient without error regardless of the aux shapes;
a mismatched aux array only raises a shape error when it is first combined
elementwise inside the loop (here: on the first iteration, after the
per-step state updates have already been computed). -/
theorem deriv_no_entry_validation :
    (∀ (x g : List ℝ) (auxa : Option (List ℂ)) (auxb af bf : List ℂ),
      deriv1 [] x g auxa auxb af bf = .ok []) ∧
    (∀ (x g : List (List ℝ)) (auxa : Option (List ℂ)) (auxb af bf : List ℂ),
      derivN [] x g auxa auxb af bf = .ok []) ∧
    deriv1 [0] [0, 0] [0] none [1, 1, 1] [1, 1] [0, 0] = .error .shapeMismatch := by
  refine ⟨fun _ _ _ _ _ _ => rfl, fun _ _ _ _ _ _ => rfl, ?_⟩
  simp [deriv1, dgo, derivStep, idx, ew, wf1]

/-- C6 counterexample: a call with `auxb` of length 2 against a single spin
(`x`, `af`, `bf` of length 1) and an empty RF waveform returns normally:
no shape error is raised at call entry. -/
theorem deriv_mismatched_aux_no_error :
    deriv1 [] [0] [] none [1, 1] [1] [0] = .ok [] := rfl

/-! ### Claim C8: 1-D versus Ndim = 1 equivalence -/

theorem dot_single (v w : ℝ) : dot [v] [w] = v * w := by
  simp [dot]

theorem foldl_zipWith_singletons (rs : List ℝ) :
    ∀ acc : ℝ, List.foldl (fun acc row => List.zipWith (· + ·) acc row) [acc]
      (rs.map fun v => [v]) = [acc + rs.sum] := by
  induction rs with
  | nil => intro acc; simp
  | cons r rs ih =>
    intro acc
    simp only [List.map_cons, List.foldl_cons, List.zipWith, List.sum_cons]
    rw [ih (acc + r)]
    ring_nf

theorem dot_single_sumCols (v : ℝ) (g : List ℝ) :
    dot [v] (sumCols (g.map fun w => [w])) = v * g.sum := by
  cases g with
  | nil => simp [dot, sumCols]
  | cons r rs =>
    simp only [List.map_cons, sumCols]
    rw [foldl_zipWith_singletons rs r]
    rw [dot_single]
    simp

theorem zf1_eq_zfN_singletons (x g : List ℝ) :
    zf1 x g = zfN (x.map fun v => [v]) (g.map fun v => [v]) := by
  funext mm
  unfold zf1 zfN
  rw [List.get?_map]
  cases hg : g.get? mm with
  | none => rfl
  | some gt =>
    simp only [Option.map_some', idx, except_ok_bind, List.map_map]
    refine congrArg Except.ok (List.map_congr_left fun v _ => ?_)
    simp only [Function.comp_apply, dot_single]
    push_cast
    ring_nf

theorem wf1_eq_wfN_singletons (x g : List ℝ) :
    wf1 x g = wfN (x.map fun v => [v]) (g.map fun v => [v]) := by
  funext mm
  unfold wf1 wfN
  rw [List.get?_map]
  cases hg : g.get? mm with
  | none => rfl
  | some gt =>
    simp only [Option.map_some', idx, except_ok_bind, List.map_map]
    refine congrArg Except.ok (List.map_congr_left fun v _ => ?_)
    simp only [Function.comp_apply, dot_single]
    push_cast
    ring_nf

/-- C8: a 1-D `x`/`g` pair and the equivalent Ndim = 1 pair (same values
with a trailing dimension of size 1) produce identical results from both
`blochsim` and `deriv`, for every input, including the error cases. -/
theorem dim1_equivalence (rf : List ℂ) (x g : List ℝ) (auxa : Option (List ℂ))
    (auxb af bf : List ℂ) :
    blochsim1 rf x g = blochsimN rf (x.map fun v => [v]) (g.map fun v => [v]) ∧
    deriv1 rf x g auxa auxb af bf =
      derivN rf (x.map fun v => [v]) (g.map fun v => [v]) auxa auxb af bf := by
  constructor
  · unfold blochsim1 blochsimN blochsimPre1 blochsimPreN
    rw [← zf1_eq_zfN_singletons x g]
    rw [show ((x.map fun v => [v]).map fun _ => (1 : ℂ)) = x.map fun _ => (1 : ℂ) by
      rw [List.map_map]; rfl]
    rw [show ((x.map fun v => [v]).map fun _ => (0 : ℂ)) = x.map fun _ => (0 : ℂ) by
      rw [List.map_map]; rfl]
    have hfin : ((x.map fun v => [v]).map fun xj =>
        Complex.exp (Complex.I / 2 * ((dot xj (sumCols (g.map fun v => [v])) : ℝ) : ℂ))) =
        x.map fun (xj : ℝ) => Complex.exp (Complex.I / 2 * (xj : ℂ) * (g.sum : ℂ)) := by
      rw [List.map_map]
      refine List.map_congr_left fun v _ => ?_
      simp only [Function.comp_apply, dot_single_sumCols]
      push_cast
      ring_nf
    rw [hfin]
  · unfold deriv1 derivN
    rw [← wf1_eq_wfN_singletons x g]

/-! ### Pure evaluation of one reverse-loop iteration on well-shaped data -/

theorem ew_eq_zipWith (f : ℂ → ℂ → ℂ) (l1 l2 : List ℂ) (h : l1.length = l2.length) :
    ew f l1 l2 = .ok (List.zipWith f l1 l2) := by
  simp [ew, h]

/-- The value computed by `derivStep` when every elementwise operation is
applied to operands of equal length: the same arithmetic, without the
`Except` plumbing. -/
noncomputable def stepAux (u : ℂ) (zs af bf ar br : List ℂ)
    (auxa : Option (List ℂ)) (auxb : List ℂ) :
    (List ℂ × List ℂ × List ℂ × List ℂ) × ℂ :=
  let af1 := List.zipWith (· * ·) af (zs.map star)
  let bf1 := List.zipWith (· * ·) bf zs
  let ar1 := List.zipWith (· * ·) ar zs
  let br1 := List.zipWith (· * ·) br zs
  let af2 := List.zipWith (· + ·) (af1.map (· * (rfC u : ℂ))) (bf1.map (· * star (rfS u)))
  let bf2 := List.zipWith (· + ·) (af1.map fun v => -(v * rfS u)) (bf1.map (· * (rfC u : ℂ)))
  let t1 := List.zipWith (· * ·) br1 bf2
  let db1 := List.zipWith (· * ·) (t1.map fun v => star (Complex.I / 2 * v)) auxb
  let t2 := List.zipWith (· * ·) (af2.map fun v => star (Complex.I / 2 * v)) ar1
  let db2 := List.zipWith (· * ·) t2 auxb
  let s0 := List.zipWith (· + ·) db2 (db1.map star)
  let d := match auxa with
    | none => s0.sum
    | some al =>
      let t3 := List.zipWith (· * ·) bf2 ar1
      let da1 := List.zipWith (· * ·) (t3.map fun v => star (Complex.I / 2 * v)) al
      let t4 := List.zipWith (· * ·) (af2.map fun v => Complex.I / 2 * star v) br1
      let da2 := List.zipWith (· * ·) t4 al
      let s1 := List.zipWith (· + ·) da2 (da1.map star)
      s0.sum + s1.sum
  let ar2 := List.zipWith (fun p q => p - q) (ar1.map (· * (rfC u : ℂ)))
      (br1.map fun v => star v * rfS u)
  let br2 := List.zipWith (· + ·) (br1.map (· * (rfC u : ℂ))) (ar1.map fun v => star v * rfS u)
  ((af2, bf2, ar2, br2), d)

theorem derivStep_eval (zf : ℕ → Except SimErr (List ℂ)) (rf : List ℂ)
    (auxa : Option (List ℂ)) (auxb : List ℂ) (t : ℕ)
    (af bf ar br zs : List ℂ) (u : ℂ) (N : ℕ)
    (hu : rf.get? t = some u) (hz : zf t = .ok zs)
    (haf : af.length = N) (hbf : bf.length = N) (har : ar.length = N)
    (hbr : br.length = N) (hzs : zs.length = N) (hab : auxb.length = N)
    (haa : ∀ al ∈ auxa, al.length = N) :
    derivStep zf rf auxa auxb t af bf ar br = .ok (stepAux u zs af bf ar br auxa auxb) := by
  unfold derivStep stepAux
  rw [hu, hz]
  simp only [idx, except_ok_bind]
  rw [ew_eq_zipWith _ _ _ (by simp [haf, hzs])]
  simp only [except_ok_bind]
  rw [ew_eq_zipWith _ _ _ (by simp [hbf, hzs])]
  simp only [except_ok_bind]
  rw [ew_eq_zipWith _ _ _ (by simp [har, hzs])]
  simp only [except_ok_bind]
  rw [ew_eq_zipWith _ _ _ (by simp [hbr, hzs])]
  simp only [except_ok_bind]
  rw [ew_eq_zipWith _ _ _ (by simp [haf, hbf, hzs])]
  simp only [except_ok_bind]
  rw [ew_eq_zipWith _ _ _ (by simp [haf, hbf, hzs])]
  simp only [except_ok_bind]
  rw [ew_eq_zipWith _ _ _ (by simp [haf, hbf, hbr, hzs])]
  simp only [except_ok_bind]
  rw [ew_eq_zipWith _ _ _ (by simp [haf, hbf, hbr, hzs, hab])]
  simp only [except_ok_bind]
  rw [ew_eq_zipWith _ _ _ (by simp [haf, hbf, har, hzs])]
  simp only [except_ok_bind]
  rw [ew_eq_zipWith _ _ _ (by simp [haf, hbf, har, hzs, hab])]
  simp only [except_ok_bind]
  rw [ew_eq_zipWith _ _ _ (by simp [haf, hbf, har, hbr, hzs, hab])]
  simp only [except_ok_bind]
  cases auxa with
  | none =>
    simp only [except_ok_bind]
    unfold accumRF
    rw [ew_eq_zipWith _ _ _ (by simp [har, hbr, hzs])]
    simp only [except_ok_bind]
    rw [ew_eq_zipWith _ _ _ (by simp [har, hbr, hzs])]
    simp only [except_ok_bind]
  | some al =>
    have hal : al.length = N := haa al (by simp)
    simp only [except_ok_bind]
    rw [ew_eq_zipWith _ _ _ (by simp [haf, hbf, har, hzs])]
    simp only [except_ok_bind]
    rw [ew_eq_zipWith _ _ _ (by simp [haf, hbf, har, hzs, hal])]
    simp only [except_ok_bind]
    rw [ew_eq_zipWith _ _ _ (by simp [haf, hbf, hbr, hzs])]
    simp only [except_ok_bind]
    rw [ew_eq_zipWith _ _ _ (by simp [haf, hbf, hbr, hzs, hal])]
    simp only [except_ok_bind]
    rw [ew_eq_zipWith _ _ _ (by simp [haf, hbf, har, hbr, hzs, hal])]
    simp only [except_ok_bind]
    unfold accumRF
    rw [ew_eq_zipWith _ _ _ (by simp [har, hbr, hzs])]
    simp only [except_ok_bind]
    rw [ew_eq_zipWith _ _ _ (by simp [har, hbr, hzs])]
    simp only [except_ok_bind]

theorem zipWith_eq_zip_map {α β γ : Type} (f : α → β → γ) :
    ∀ (l1 : List α) (l2 : List β),
      List.zipWith f l1 l2 = (l1.zip l2).map fun p => f p.1 p.2 := by
  intro l1
  induction l1 with
  | nil => intro l2; rfl
  | cons a t ih => intro l2; cases l2 with
    | nil => rfl
    | cons b s => simp [ih]

theorem exists_of_mem_zipWith {α β γ : Type} {f : α → β → γ} {l1 : List α}
    {l2 : List β} {y : γ} (h : y ∈ List.zipWith f l1 l2) :
    ∃ a ∈ l1, ∃ b ∈ l2, y = f a b := by
  rw [zipWith_eq_zip_map] at h
  obtain ⟨p, hp, rfl⟩ := List.mem_map.mp h
  exact ⟨p.1, (List.of_mem_zip hp).1, p.2, (List.of_mem_zip hp).2, rfl⟩

theorem eq_zero_of_mem_zipWith_replicate {y : ℂ} {l : List ℂ} {n : ℕ}
    (h : y ∈ List.zipWith (· * ·) l (List.replicate n (0 : ℂ))) : y = 0 := by
  obtain ⟨a, _, b, hb, rfl⟩ := exists_of_mem_zipWith h
  rw [List.eq_of_mem_replicate hb, mul_zero]

theorem aux_zero_sum (l1 l2 : List ℂ) (n : ℕ) :
    (List.zipWith (· + ·) (List.zipWith (· * ·) l2 (List.replicate n (0 : ℂ)))
      ((List.zipWith (· * ·) l1 (List.replicate n (0 : ℂ))).map star)).sum = 0 := by
  apply List.sum_eq_zero
  intro y hy
  obtain ⟨a, ha, b, hb, rfl⟩ := exists_of_mem_zipWith hy
  obtain ⟨c, hc, rfl⟩ := List.mem_map.mp hb
  rw [eq_zero_of_mem_zipWith_replicate ha, eq_zero_of_mem_zipWith_replicate hc]
  simp

/-- The state half of `stepAux` does not depend on `auxa`, and supplying the
all-zero `auxa` leaves the gradient value unchanged. -/
theorem stepAux_auxa_zero (u : ℂ) (zs af bf ar br auxb : List ℂ) (N : ℕ) :
    stepAux u zs af bf ar br (some (List.replicate N 0)) auxb =
      stepAux u zs af bf ar br none auxb := by
  unfold stepAux
  refine congrArg _ ?_
  simp only []
  rw [aux_zero_sum, add_zero]

theorem stepAux_lengths (u : ℂ) (zs af bf ar br auxb : List ℂ)
    (auxa : Option (List ℂ)) (N : ℕ)
    (haf : af.length = N) (hbf : bf.length = N) (har : ar.length = N)
    (hbr : br.length = N) (hzs : zs.length = N) :
    (stepAux u zs af bf ar br auxa auxb).1.1.length = N ∧
    (stepAux u zs af bf ar br auxa auxb).1.2.1.length = N ∧
    (stepAux u zs af bf ar br auxa auxb).1.2.2.1.length = N ∧
    (stepAux u zs af bf ar br auxa auxb).1.2.2.2.length = N := by
  unfold stepAux
  refine ⟨?_, ?_, ?_, ?_⟩ <;> simp [haf, hbf, har, hbr, hzs]

/-- On well-shaped data, running the reverse loop with `auxa = none` and
with `auxa` the all-zero array produces the same result. -/
theorem dgo_auxa_zero (zf : ℕ → Except SimErr (List ℂ)) (rf : List ℂ)
    (auxb : List ℂ) (N : ℕ) (hab : auxb.length = N)
    (hzf : ∀ t, t < rf.length → ∃ zs, zf t = .ok zs ∧ zs.length = N) :
    ∀ (fuel : ℕ), fuel ≤ rf.length → ∀ (af bf ar br : List ℂ),
      af.length = N → bf.length = N → ar.length = N → br.length = N →
      ∃ drf, dgo zf rf none auxb fuel af bf ar br = .ok drf ∧
        dgo zf rf (some (List.replicate N 0)) auxb fuel af bf ar br = .ok drf := by
  intro fuel
  induction fuel with
  | zero => exact fun _ af bf ar br _ _ _ _ => ⟨[], rfl, rfl⟩
  | succ f ih =>
    intro hle af bf ar br haf hbf har hbr
    have hu : rf.get? f = some (rf.getD f 0) := get?_eq_some_getD rf f 0 (by omega)
    obtain ⟨zs, hz, hzslen⟩ := hzf f (by omega)
    have hs1 := derivStep_eval zf rf none auxb f af bf ar br zs _ N hu hz
      haf hbf har hbr hzslen hab (by simp)
    have hs2 := derivStep_eval zf rf (some (List.replicate N 0)) auxb f af bf ar br zs _ N hu hz
      haf hbf har hbr hzslen hab
      (by intro al hal; simp only [Option.mem_def, Option.some.injEq] at hal
          rw [← hal]; simp)
    obtain ⟨l1, l2, l3, l4⟩ := stepAux_lengths (rf.getD f 0) zs af bf ar br auxb none N
      haf hbf har hbr hzslen
    obtain ⟨drf, h1, h2⟩ := ih (by omega)
      (stepAux (rf.getD f 0) zs af bf ar br none auxb).1.1
      (stepAux (rf.getD f 0) zs af bf ar br none auxb).1.2.1
      (stepAux (rf.getD f 0) zs af bf ar br none auxb).1.2.2.1
      (stepAux (rf.getD f 0) zs af bf ar br none auxb).1.2.2.2
      l1 l2 l3 l4
    refine ⟨drf ++ [(stepAux (rf.getD f 0) zs af bf ar br none auxb).2], ?_, ?_⟩
    · rw [dgo, hs1]
      simp only [except_ok_bind]
      rw [h1]
      rfl
    · rw [dgo, hs2, stepAux_auxa_zero]
      simp only [except_ok_bind]
      rw [h2]
      rfl

theorem wf1_ok_of_lt (x g : List ℝ) (mm : ℕ) (h : mm < g.length) :
    wf1 x g mm = .ok (x.map fun (xj : ℝ) =>
      Complex.exp (Complex.I / 2 * (xj : ℂ) * ((g.getD mm 0 : ℝ) : ℂ))) := by
  unfold wf1
  rw [get?_eq_some_getD g mm 0 h]
  rfl

theorem wfN_ok_of_lt (x g : List (List ℝ)) (mm : ℕ) (h : mm < g.length) :
    wfN x g mm = .ok (x.map fun xj =>
      Complex.exp (Complex.I / 2 * ((dot xj (g.getD mm []) : ℝ) : ℂ))) := by
  unfold wfN
  rw [get?_eq_some_getD g mm [] h]
  rfl

/-- C9: a call to `deriv` with `auxa = None` raises no error on well-shaped
inputs and returns exactly the gradient of the same call with `auxa`
supplied as the all-zero array, in both branches. -/
theorem deriv_auxa_none_is_zero (rf : List ℂ) (x1 g1 : List ℝ)
    (xN gN : List (List ℝ)) (auxb af bf : List ℂ)
    (hx1 : x1.length = af.length) (hxN : xN.length = af.length)
    (hbf : bf.length = af.length) (hab : auxb.length = af.length)
    (hg1 : rf.length ≤ g1.length) (hgN : rf.length ≤ gN.length) :
    (∃ drf, deriv1 rf x1 g1 none auxb af bf = .ok drf ∧
      deriv1 rf x1 g1 (some (List.replicate af.length 0)) auxb af bf = .ok drf) ∧
    (∃ drf, derivN rf xN gN none auxb af bf = .ok drf ∧
      derivN rf xN gN (some (List.replicate af.length 0)) auxb af bf = .ok drf) := by
  constructor
  · have h := dgo_auxa_zero (wf1 x1 g1) rf auxb af.length hab
      (fun t ht => ⟨_, wf1_ok_of_lt x1 g1 t (by omega), by simp [hx1]⟩)
      rf.length le_rfl af bf (af.map fun _ => 1) (bf.map fun _ => 0)
      rfl hbf (by simp) (by simp [hbf])
    exact h
  · have h := dgo_auxa_zero (wfN xN gN) rf auxb af.length hab
      (fun t ht => ⟨_, wfN_ok_of_lt xN gN t (by omega), by simp [hxN]⟩)
      rf.length le_rfl af bf (af.map fun _ => 1) (bf.map fun _ => 0)
      rfl hbf (by simp) (by simp [hbf])
    exact h

/-! ### Claim C10: unit norm of the backward accumulator -/

theorem zip_zipWith_same {α β γ δ : Type} (F : α → β → γ) (G : α → β → δ) :
    ∀ (l1 : List α) (l2 : List β),
      (List.zipWith F l1 l2).zip (List.zipWith G l1 l2) =
        (l1.zip l2).map fun p => (F p.1 p.2, G p.1 p.2) := by
  intro l1
  induction l1 with
  | nil => intro l2; rfl
  | cons a t ih => intro l2; cases l2 with
    | nil => rfl
    | cons b s => simp [ih]

theorem zip_zipWith_shared {α β γ δ ε : Type} (F : α → γ → δ) (G : β → γ → ε) :
    ∀ (a : List α) (b : List β) (c : List γ),
      (List.zipWith F a c).zip (List.zipWith G b c) =
        ((a.zip b).zip c).map fun q => (F q.1.1 q.2, G q.1.2 q.2) := by
  intro a
  induction a with
  | nil => intro b c; rfl
  | cons x xs ih =>
    intro b c
    cases b with
    | nil => cases c <;> rfl
    | cons y ys => cases c with
      | nil => rfl
      | cons z zs => simp [ih]

/-- The conjugated RF update of the backward accumulator scales the spinor
norm by `C² + |S|²`. -/
theorem accumRF_scalar_normSq (u a b : ℂ) :
    Complex.normSq (a * (rfC u : ℂ) - star b * rfS u) +
      Complex.normSq (b * (rfC u : ℂ) + star a * rfS u) =
    (Complex.normSq a + Complex.normSq b) * (rfC u ^ 2 + Complex.normSq (rfS u)) := by
  simp only [Complex.normSq_apply, Complex.sub_re, Complex.sub_im, Complex.add_re,
    Complex.add_im, Complex.mul_re, Complex.mul_im, Complex.ofReal_re, Complex.ofReal_im,
    Complex.star_def, Complex.conj_re, Complex.conj_im]
  ring

/-- One loop iteration preserves the per-spin unit norm of the backward
accumulator: multiplying by unit phases and applying the conjugated RF
update keeps `|ar|² + |br|² = 1`. -/
theorem accum_pair_unitary (u : ℂ) (zs ar br : List ℂ)
    (hzs : ∀ z ∈ zs, Complex.normSq z = 1)
    (hinv : ∀ p ∈ ar.zip br, Complex.normSq p.1 + Complex.normSq p.2 = 1) :
    ∀ p ∈ (List.zipWith (fun p q => p - q)
        ((List.zipWith (· * ·) ar zs).map (· * (rfC u : ℂ)))
        ((List.zipWith (· * ·) br zs).map fun v => star v * rfS u)).zip
      (List.zipWith (· + ·)
        ((List.zipWith (· * ·) br zs).map (· * (rfC u : ℂ)))
        ((List.zipWith (· * ·) ar zs).map fun v => star v * rfS u)),
      Complex.normSq p.1 + Complex.normSq p.2 = 1 := by
  intro p hp
  rw [List.zipWith_map (fun p q => p - q) (· * (rfC u : ℂ)) (fun v => star v * rfS u)
      (List.zipWith (· * ·) ar zs) (List.zipWith (· * ·) br zs)] at hp
  rw [List.zipWith_map (· + ·) (· * (rfC u : ℂ)) (fun v => star v * rfS u)
      (List.zipWith (· * ·) br zs) (List.zipWith (· * ·) ar zs)] at hp
  rw [List.zipWith_comm _ (List.zipWith (· * ·) br zs) (List.zipWith (· * ·) ar zs)] at hp
  rw [zip_zipWith_same] at hp
  obtain ⟨q, hq, rfl⟩ := List.mem_map.mp hp
  rw [zip_zipWith_shared] at hq
  obtain ⟨w, hw, rfl⟩ := List.mem_map.mp hq
  have hvw := hinv w.1 (List.of_mem_zip hw).1
  have hz := hzs w.2 (List.of_mem_zip hw).2
  simp only
  rw [accumRF_scalar_normSq, rfC_sq_add_normSq_rfS, mul_one]
  simp only [map_mul, hz, mul_one] at hvw ⊢
  exact hvw

/-- The accumulator/forward-replay state of the reverse loop after `j`
iterations of a `T`-iteration run: iteration `i` applies `derivStep` at
time index `T - 1 - i`, exactly as `dgo` does. -/
noncomputable def dgoState (zf : ℕ → Except SimErr (List ℂ)) (rf : List ℂ)
    (auxa : Option (List ℂ)) (auxb : List ℂ) (T : ℕ)
    (st0 : List ℂ × List ℂ × List ℂ × List ℂ) :
    ℕ → Except SimErr (List ℂ × List ℂ × List ℂ × List ℂ)
  | 0 => .ok st0
  | j + 1 => do
    let st ← dgoState zf rf auxa auxb T st0 j
    let (st', _) ← derivStep zf rf auxa auxb (T - 1 - j) st.1 st.2.1 st.2.2.1 st.2.2.2
    .ok st'

/-- Every successful `dgo` run passes through each of its intermediate
states: after any `j ≤ T` iterations the state exists and the remaining
loop still succeeds from it. -/
theorem dgo_passes_through (zf : ℕ → Except SimErr (List ℂ)) (rf : List ℂ)
    (auxa : Option (List ℂ)) (auxb : List ℂ) :
    ∀ (j f : ℕ) (st0 : List ℂ × List ℂ × List ℂ × List ℂ) (drf : List ℂ),
      dgo zf rf auxa auxb (j + f) st0.1 st0.2.1 st0.2.2.1 st0.2.2.2 = .ok drf →
      ∃ st, dgoState zf rf auxa auxb (j + f) st0 j = .ok st ∧
        ∃ drf2, dgo zf rf auxa auxb f st.1 st.2.1 st.2.2.1 st.2.2.2 = .ok drf2 := by
  intro j
  induction j with
  | zero =>
    intro f st0 drf h
    rw [Nat.zero_add] at h
    exact ⟨st0, rfl, drf, h⟩
  | succ j ih =>
    intro f st0 drf h
    rw [show j + 1 + f = j + (f + 1) by omega] at h
    obtain ⟨st, hst, drf2, hdgo⟩ := ih (f + 1) st0 drf h
    rw [dgo] at hdgo
    cases hds : derivStep zf rf auxa auxb f st.1 st.2.1 st.2.2.1 st.2.2.2 with
    | error e => rw [hds] at hdgo; exact absurd hdgo (by simp)
    | ok p =>
      obtain ⟨st', d⟩ := p
      rw [hds] at hdgo
      simp only [except_ok_bind] at hdgo
      cases hrest : dgo zf rf auxa auxb f st'.1 st'.2.1 st'.2.2.1 st'.2.2.2 with
      | error e => rw [hrest] at hdgo; exact absurd hdgo (by simp)
      | ok rest =>
        refine ⟨st', ?_, rest, hrest⟩
        rw [show j + 1 + f = j + (f + 1) by omega]
        rw [dgoState, hst]
        simp only [except_ok_bind]
        rw [show j + (f + 1) - 1 - j = f by omega]
        rw [hds]
        rfl

/-- Along `dgoState`, on well-shaped data, every state has length-`N`
components and a pairwise unit-norm backward accumulator. -/
theorem dgoState_accum_unitary (zf : ℕ → Except SimErr (List ℂ)) (rf : List ℂ)
    (auxa : Option (List ℂ)) (auxb : List ℂ) (T : ℕ)
    (st0 : List ℂ × List ℂ × List ℂ × List ℂ) (N : ℕ)
    (h1 : st0.1.length = N) (h2 : st0.2.1.length = N) (h3 : st0.2.2.1.length = N)
    (h4 : st0.2.2.2.length = N) (hab : auxb.length = N)
    (haa : ∀ al ∈ auxa, al.length = N)
    (hzf : ∀ t, t < rf.length →
      ∃ zs, zf t = .ok zs ∧ zs.length = N ∧ ∀ z ∈ zs, Complex.normSq z = 1)
    (hinit : ∀ p ∈ st0.2.2.1.zip st0.2.2.2,
      Complex.normSq p.1 + Complex.normSq p.2 = 1)
    (hT : T ≤ rf.length) :
    ∀ j, j ≤ T → ∀ st, dgoState zf rf auxa auxb T st0 j = .ok st →
      st.1.length = N ∧ st.2.1.length = N ∧ st.2.2.1.length = N ∧
      st.2.2.2.length = N ∧
      ∀ p ∈ st.2.2.1.zip st.2.2.2, Complex.normSq p.1 + Complex.normSq p.2 = 1 := by
  intro j
  induction j with
  | zero =>
    intro _ st hst
    rw [dgoState] at hst
    obtain rfl := Except.ok.inj hst
    exact ⟨h1, h2, h3, h4, hinit⟩
  | succ j ih =>
    intro hj st hst
    rw [dgoState] at hst
    cases hprev : dgoState zf rf auxa auxb T st0 j with
    | error e => rw [hprev] at hst; exact absurd hst (by simp)
    | ok stj =>
      rw [hprev] at hst
      simp only [except_ok_bind] at hst
      obtain ⟨pl1, pl2, pl3, pl4, pinv⟩ := ih (by omega) stj hprev
      have hidx : T - 1 - j < rf.length := by omega
      obtain ⟨zs, hz, hzslen, hzsu⟩ := hzf (T - 1 - j) hidx
      have hu : rf.get? (T - 1 - j) = some (rf.getD (T - 1 - j) 0) :=
        get?_eq_some_getD rf _ 0 hidx
      rw [derivStep_eval zf rf auxa auxb (T - 1 - j) stj.1 stj.2.1 stj.2.2.1 stj.2.2.2
        zs _ N hu hz pl1 pl2 pl3 pl4 hzslen hab haa] at hst
      simp only [except_ok_bind] at hst
      obtain rfl := Except.ok.inj hst
      obtain ⟨q1, q2, q3, q4⟩ := stepAux_lengths (rf.getD (T - 1 - j) 0) zs
        stj.1 stj.2.1 stj.2.2.1 stj.2.2.2 auxb auxa N pl1 pl2 pl3 pl4 hzslen
      exact ⟨q1, q2, q3, q4,
        accum_pair_unitary (rf.getD (T - 1 - j) 0) zs stj.2.2.1 stj.2.2.2 hzsu pinv⟩

/-- C10: in every well-shaped call to `deriv` (either branch), the backward
accumulator satisfies `|ar|² + |br|² = 1` for every spin after every
iteration of the reverse loop, starting from the identity initialization
`ar = 1, br = 0`: the per-step unit-modulus phase multiplication and the
conjugated RF update both preserve the norm exactly. -/
theorem deriv_accumulator_unitary (rf : List ℂ) (x1 g1 : List ℝ)
    (xN gN : List (List ℝ)) (auxa : Option (List ℂ)) (auxb af bf : List ℂ)
    (hx1 : x1.length = af.length) (hxN : xN.length = af.length)
    (hbf : bf.length = af.length) (hab : auxb.length = af.length)
    (haa : ∀ al ∈ auxa, al.length = af.length)
    (hg1 : rf.length ≤ g1.length) (hgN : rf.length ≤ gN.length) :
    (∀ drf, deriv1 rf x1 g1 auxa auxb af bf = .ok drf →
      ∀ j, j ≤ rf.length → ∃ st,
        dgoState (wf1 x1 g1) rf auxa auxb rf.length
          (af, bf, af.map fun _ => 1, bf.map fun _ => 0) j = .ok st ∧
        ∀ p ∈ st.2.2.1.zip st.2.2.2,
          Complex.normSq p.1 + Complex.normSq p.2 = 1) ∧
    (∀ drf, derivN rf xN gN auxa auxb af bf = .ok drf →
      ∀ j, j ≤ rf.length → ∃ st,
        dgoState (wfN xN gN) rf auxa auxb rf.length
          (af, bf, af.map fun _ => 1, bf.map fun _ => 0) j = .ok st ∧
        ∀ p ∈ st.2.2.1.zip st.2.2.2,
          Complex.normSq p.1 + Complex.normSq p.2 = 1) := by
  have hinit : ∀ p ∈ ((af.map fun _ => (1 : ℂ)).zip (bf.map fun _ => (0 : ℂ))),
      Complex.normSq p.1 + Complex.normSq p.2 = 1 := by
    intro p hp
    rw [List.zip_map] at hp
    obtain ⟨q, _, rfl⟩ := List.mem_map.mp hp
    simp
  constructor
  · intro drf h j hj
    have hzf : ∀ t, t < rf.length → ∃ zs, wf1 x1 g1 t = .ok zs ∧
        zs.length = af.length ∧ ∀ z ∈ zs, Complex.normSq z = 1 := by
      intro t ht
      refine ⟨_, wf1_ok_of_lt x1 g1 t (by omega), by simp [hx1], ?_⟩
      intro z hz
      obtain ⟨xj, _, rfl⟩ := List.mem_map.mp hz
      exact normSq_exp_I_div_two_mul xj _
    unfold deriv1 at h
    rw [show rf.length = j + (rf.length - j) by omega] at h
    obtain ⟨st, hst, _⟩ := dgo_passes_through (wf1 x1 g1) rf auxa auxb j (rf.length - j)
      (af, bf, af.map fun _ => 1, bf.map fun _ => 0) drf h
    rw [show j + (rf.length - j) = rf.length by omega] at hst
    refine ⟨st, hst, ?_⟩
    exact (dgoState_accum_unitary (wf1 x1 g1) rf auxa auxb rf.length
      (af, bf, af.map fun _ => 1, bf.map fun _ => 0) af.length
      rfl hbf (by simp) (by simp [hbf]) hab haa hzf hinit le_rfl j hj st hst).2.2.2.2
  · intro drf h j hj
    have hzf : ∀ t, t < rf.length → ∃ zs, wfN xN gN t = .ok zs ∧
        zs.length = af.length ∧ ∀ z ∈ zs, Complex.normSq z = 1 := by
      intro t ht
      refine ⟨_, wfN_ok_of_lt xN gN t (by omega), by simp [hxN], ?_⟩
      intro z hz
      obtain ⟨xj, _, rfl⟩ := List.mem_map.mp hz
      exact normSq_exp_I_div_two_ofReal _
    unfold derivN at h
    rw [show rf.length = j + (rf.length - j) by omega] at h
    obtain ⟨st, hst, _⟩ := dgo_passes_through (wfN xN gN) rf auxa auxb j (rf.length - j)
      (af, bf, af.map fun _ => 1, bf.map fun _ => 0) drf h
    rw [show j + (rf.length - j) = rf.length by omega] at hst
    refine ⟨st, hst, ?_⟩
    exact (dgoState_accum_unitary (wfN xN gN) rf auxa auxb rf.length
      (af, bf, af.map fun _ => 1, bf.map fun _ => 0) af.length
      rfl hbf (by simp) (by simp [hbf]) hab haa hzf hinit le_rfl j hj st hst).2.2.2.2

/-! ### Witnesses -/

theorem blochsim_matches_spec_witness :
    blochsim1 [0] [0] [0] = .ok (specForward1 [0] [0] [0]) ∧
    blochsimN [0] [[0]] [[0]] = .ok (specForwardN [0] [[0]] [[0]]) :=
  blochsim_matches_spec [0] [0] [0] [[0]] [[0]] rfl rfl

theorem blochsim_unitarity_take_eval :
    bsLoop (zf1 [0] [0]) ([(0 : ℂ)].take 1) 0
      ([(0 : ℝ)].map fun _ => 1, [(0 : ℝ)].map fun _ => 0) = .ok ([1], [0]) := by
  simp [bsLoop, zf1, idx, rfRotStep_zero, Complex.exp_zero]

theorem blochsim_unitarity_witness :
    bsLoop (zf1 [0] [0]) ([(0 : ℂ)].take 1) 0
      ([(0 : ℝ)].map fun _ => 1, [(0 : ℝ)].map fun _ => 0) = .ok ([1], [0]) ∧
    ∀ p ∈ List.zipWith (fun aj bj => Complex.normSq aj + Complex.normSq bj)
      [(1 : ℂ)] [(0 : ℂ)], p = 1 :=
  ⟨blochsim_unitarity_take_eval,
    (blochsim_unitarity [0] [0] [0] [[0]] [[0]]).1 1 [1] [0] blochsim_unitarity_take_eval⟩

theorem blochsim_no_entry_validation_witness :
    (∃ ab, blochsim1 [0] [0] [0, 1] = .ok ab) ∧
    blochsim1 [0, 0] [0] [0] = .error .indexError ∧
    (∃ ab, blochsimN [0] [[0]] [[0], [1]] = .ok ab) ∧
    blochsimN [0, 0] [[0]] [[0]] = .error .indexError :=
  ⟨blochsim_no_entry_validation.1 [0] [0] [0, 1] (by norm_num),
   blochsim_no_entry_validation.2.1 [0, 0] [0] [0] (by norm_num),
   blochsim_no_entry_validation.2.2.1 [0] [[0]] [[0], [1]] (by simp) (by norm_num),
   blochsim_no_entry_validation.2.2.2 [0, 0] [[0]] [[0]] (by simp) (by norm_num)⟩

theorem blochsim_zero_pulse_witness :
    blochsim1 (List.replicate 1 0) [0] [0] =
      .ok ([(0 : ℝ)].map fun (xj : ℝ) =>
        Complex.exp (Complex.I / 2 * (xj : ℂ) * (([(0 : ℝ)].sum : ℝ) : ℂ)),
        [(0 : ℝ)].map fun _ => 0) ∧
    blochsimN (List.replicate 1 0) [[0]] [[0]] =
      .ok ([[(0 : ℝ)]].map fun xj =>
        Complex.exp (Complex.I / 2 * ((dot xj (sumCols [[0]]) : ℝ) : ℂ)),
        [[(0 : ℝ)]].map fun _ => 0) :=
  blochsim_zero_pulse 1 [0] [0] [[0]] [[0]] rfl rfl

theorem deriv_auxa_none_is_zero_witness :
    (∃ drf, deriv1 [0] [0] [0] none [1] [1] [0] = .ok drf ∧
      deriv1 [0] [0] [0] (some (List.replicate ([(1 : ℂ)]).length 0)) [1] [1] [0] = .ok drf) ∧
    (∃ drf, derivN [0] [[0]] [[0]] none [1] [1] [0] = .ok drf ∧
      derivN [0] [[0]] [[0]] (some (List.replicate ([(1 : ℂ)]).length 0)) [1] [1] [0] = .ok drf) :=
  deriv_auxa_none_is_zero [0] [0] [0] [[0]] [[0]] [1] [1] [0]
    rfl rfl rfl rfl (by norm_num) (by norm_num)

theorem deriv1_eval_simple :
    deriv1 [0] [0] [0] none [1] [1] [0] = .ok [-(Complex.I / 2)] := by
  simp [deriv1, dgo, derivStep, wf1, idx, ew, accumRF, rfC_zero, rfS_zero,
    Complex.exp_zero]
  ring

theorem deriv_accumulator_unitary_witness :
    deriv1 [0] [0] [0] none [1] [1] [0] = .ok [-(Complex.I / 2)] ∧
    (1 : ℕ) ≤ [(0 : ℂ)].length ∧
    ∃ st, dgoState (wf1 [0] [0]) [0] none [1] [(0 : ℂ)].length
        ([1], [0], [(1 : ℂ)].map fun _ => 1, [(0 : ℂ)].map fun _ => 0) 1 = .ok st ∧
      ∀ p ∈ st.2.2.1.zip st.2.2.2,
        Complex.normSq p.1 + Complex.normSq p.2 = 1 :=
  ⟨deriv1_eval_simple, by norm_num,
    (deriv_accumulator_unitary [0] [0] [0] [[0]] [[0]] none [1] [1] [0]
      rfl rfl rfl rfl (by simp) (by norm_num) (by norm_num)).1
      [-(Complex.I / 2)] deriv1_eval_simple 1 (by norm_num)⟩

/-! ### Claim C1: the gradient semantics of `deriv` -/

/-- The scalar loss of §8: `L(a, b) = Σ_spins Re(conj(auxb)·b)`, plus
`Σ_spins Re(conj(auxa)·a)` when `auxa` is present. -/
noncomputable def lossAt (auxa : Option (List ℂ)) (auxb : List ℂ)
    (ab : List ℂ × List ℂ) : ℝ :=
  (List.zipWith (fun w v => (star w * v).re) auxb ab.2).sum +
  match auxa with
  | none => 0
  | some al => (List.zipWith (fun w v => (star w * v).re) al ab.1).sum

/-- Partial derivative of a real-valued function of one complex variable
with respect to the real part, taken as a one-variable real derivative
(the spec's "treated as two real partial derivatives"). -/
noncomputable def pdRe (L : ℂ → ℝ) (u : ℂ) : ℝ :=
  deriv (fun s : ℝ => L (u + (s : ℂ))) 0

/-- Partial derivative with respect to the imaginary part. -/
noncomputable def pdIm (L : ℂ → ℝ) (u : ℂ) : ℝ :=
  deriv (fun s : ℝ => L (u + (s : ℂ) * Complex.I)) 0

/-- The Wirtinger derivative `∂L/∂u = (∂L/∂x − i·∂L/∂y)/2` of a real
scalar loss, the convention named by the claim (`u` treated as an
independent complex variable). -/
noncomputable def wirtinger (L : ℂ → ℝ) (u : ℂ) : ℂ :=
  (((pdRe L u : ℝ) : ℂ) - ((pdIm L u : ℝ) : ℂ) * Complex.I) / 2

/-- On the real axis `S` reduces to `i·sin(s/2)`. -/
theorem rfS_ofReal (s : ℝ) : rfS (s : ℂ) = Complex.I * (Real.sin (s / 2) : ℂ) := by
  unfold rfS
  rcases lt_trichotomy s 0 with hs | hs | hs
  · rw [Complex.arg_ofReal_of_neg hs, Complex.abs_ofReal, abs_of_neg hs]
    rw [mul_comm Complex.I ((Real.pi : ℝ) : ℂ), Complex.exp_pi_mul_I]
    have : Real.sin (-s / 2) = -Real.sin (s / 2) := by
      rw [neg_div, Real.sin_neg]
    rw [this]
    push_cast
    ring
  · subst hs
    simp
  · rw [Complex.arg_ofReal_of_nonneg hs.le, Complex.abs_ofReal, abs_of_pos hs]
    simp

/-- On the real axis `C` reduces to `cos(s/2)`. -/
theorem rfC_ofReal (s : ℝ) : rfC (s : ℂ) = Real.cos (s / 2) := by
  unfold rfC
  rw [Complex.abs_ofReal]
  rw [show |s| / 2 = |s / 2| by rw [abs_div]; norm_num]
  exact Real.cos_abs (s / 2)

/-- On the imaginary axis `S` reduces to `−sin(s/2)`. -/
theorem rfS_I_ofReal (s : ℝ) : rfS ((s : ℂ) * Complex.I) = -(Real.sin (s / 2) : ℂ) := by
  unfold rfS
  rcases lt_trichotomy s 0 with hs | hs | hs
  · have harg : Complex.arg ((s : ℂ) * Complex.I) = -(Real.pi / 2) := by
      have h1 : ((s : ℂ) * Complex.I) = ((-s : ℝ) : ℂ) * -Complex.I := by
        push_cast
        ring
      rw [h1, Complex.arg_real_mul _ (by linarith : (0 : ℝ) < -s), Complex.arg_neg_I]
    rw [harg]
    rw [map_mul, Complex.abs_I, Complex.abs_ofReal, mul_one, abs_of_neg hs]
    have hexp : Complex.exp (Complex.I * ((-(Real.pi / 2) : ℝ) : ℂ)) = -Complex.I := by
      rw [mul_comm, Complex.exp_mul_I]
      push_cast
      simp [Real.cos_pi_div_two, Real.sin_pi_div_two]
    rw [hexp]
    have : Real.sin (-s / 2) = -Real.sin (s / 2) := by
      rw [neg_div, Real.sin_neg]
    rw [this]
    push_cast
    ring_nf
    rw [Complex.I_sq]
    ring
  · subst hs
    simp
  · have harg : Complex.arg ((s : ℂ) * Complex.I) = Real.pi / 2 := by
      rw [Complex.arg_real_mul _ hs, Complex.arg_I]
    rw [harg]
    rw [map_mul, Complex.abs_I, Complex.abs_ofReal, mul_one, abs_of_pos hs]
    have hexp : Complex.exp (Complex.I * ((Real.pi / 2 : ℝ) : ℂ)) = Complex.I := by
      rw [mul_comm, Complex.exp_mul_I]
      push_cast
      simp [Real.cos_pi_div_two, Real.sin_pi_div_two]
    rw [hexp]
    ring_nf
    rw [Complex.I_sq]
    ring

/-- On the imaginary axis `C` reduces to `cos(s/2)`. -/
theorem rfC_I_ofReal (s : ℝ) : rfC ((s : ℂ) * Complex.I) = Real.cos (s / 2) := by
  unfold rfC
  rw [map_mul, Complex.abs_I, Complex.abs_ofReal, mul_one]
  rw [show |s| / 2 = |s / 2| by rw [abs_div]; norm_num]
  exact Real.cos_abs (s / 2)

/-- `S` away from the origin, in `arg`-free form. -/
theorem rfS_of_ne_zero (u : ℂ) (hu : u ≠ 0) :
    rfS u = Complex.I * u * ((Real.sin (Complex.abs u / 2) : ℝ) : ℂ) /
      ((Complex.abs u : ℝ) : ℂ) := by
  unfold rfS
  have habs : ((Complex.abs u : ℝ) : ℂ) ≠ 0 := by
    simpa using Complex.abs.ne_zero hu
  have h1 : Complex.exp (Complex.I * (u.arg : ℂ)) = u / ((Complex.abs u : ℝ) : ℂ) := by
    rw [mul_comm, eq_div_iff habs, mul_comm]
    exact Complex.abs_mul_exp_arg_mul_I u
  rw [h1]
  ring

/-- The loss of the concrete counterexample call: the §8 loss with
`auxb = [1]`, `auxa` absent, evaluated at the final corrected state
returned by `blochsim` for `rf = [u]`, `x = [0]`, `g = [0]` (so that
`L(u) = Re(S(u))`). -/
noncomputable def lossCE (u : ℂ) : ℝ :=
  match blochsim1 [u] [0] [0] with
  | .ok ab => lossAt none [1] ab
  | .error _ => 0

theorem lossCE_eq (u : ℂ) : lossCE u = (rfS u).re := by
  unfold lossCE blochsim1 blochsimPre1
  simp [bsLoop, zf1, idx, rfRotStep, Complex.exp_zero, lossAt]

theorem pdRe_lossCE : pdRe lossCE (Real.pi : ℂ) = 0 := by
  unfold pdRe
  have hfun : (fun s : ℝ => lossCE ((Real.pi : ℂ) + (s : ℂ))) = fun _ => (0 : ℝ) := by
    funext s
    rw [show ((Real.pi : ℂ) + (s : ℂ)) = ((Real.pi + s : ℝ) : ℂ) by push_cast; ring]
    rw [lossCE_eq, rfS_ofReal]
    simp only [Complex.mul_re, Complex.I_re, Complex.I_im, Complex.ofReal_re,
      Complex.ofReal_im]
    ring
  rw [hfun]
  exact deriv_const 0 _

theorem pdIm_lossCE : pdIm lossCE (Real.pi : ℂ) = -(1 / Real.pi) := by
  unfold pdIm
  have hne : ∀ s : ℝ, (Real.pi : ℂ) + (s : ℂ) * Complex.I ≠ 0 := by
    intro s h
    have := congrArg Complex.re h
    simp at this
    exact Real.pi_ne_zero this
  have habs : ∀ s : ℝ, Complex.abs ((Real.pi : ℂ) + (s : ℂ) * Complex.I) =
      Real.sqrt (Real.pi ^ 2 + s ^ 2) := by
    intro s
    rw [Complex.abs_apply, Complex.normSq_add_mul_I]
  have hfun : (fun s : ℝ => lossCE ((Real.pi : ℂ) + (s : ℂ) * Complex.I)) =
      fun s : ℝ => -s * (Real.sin (Real.sqrt (Real.pi ^ 2 + s ^ 2) / 2) /
        Real.sqrt (Real.pi ^ 2 + s ^ 2)) := by
    funext s
    rw [lossCE_eq, rfS_of_ne_zero _ (hne s), habs s]
    rw [Complex.div_ofReal_re]
    rw [show (Complex.I * ((Real.pi : ℂ) + (s : ℂ) * Complex.I) *
        ((Real.sin (Real.sqrt (Real.pi ^ 2 + s ^ 2) / 2) : ℝ) : ℂ)).re =
        (Complex.I * ((Real.pi : ℂ) + (s : ℂ) * Complex.I)).re *
          Real.sin (Real.sqrt (Real.pi ^ 2 + s ^ 2) / 2) by
      rw [Complex.mul_re]
      simp only [Complex.ofReal_re, Complex.ofReal_im, mul_zero, sub_zero]]
    have hre : (Complex.I * ((Real.pi : ℂ) + (s : ℂ) * Complex.I)).re = -s := by
      simp [Complex.mul_re]
    rw [hre]
    ring
  rw [hfun]
  have hq : HasDerivAt (fun s : ℝ => Real.pi ^ 2 + s ^ 2) 0 0 := by
    have h1 : HasDerivAt (fun s : ℝ => s ^ 2) ((2 : ℕ) * 0 ^ (2 - 1)) (0 : ℝ) :=
      hasDerivAt_pow 2 0
    have h2 := h1.const_add (Real.pi ^ 2)
    simpa using h2
  have hq0 : Real.pi ^ 2 + (0 : ℝ) ^ 2 ≠ 0 := by
    have := Real.pi_pos
    positivity
  have hsqrt := hq.sqrt hq0
  have hsq0 : Real.sqrt (Real.pi ^ 2 + (0 : ℝ) ^ 2) = Real.pi := by
    rw [show Real.pi ^ 2 + (0 : ℝ) ^ 2 = Real.pi ^ 2 by norm_num]
    exact Real.sqrt_sq Real.pi_pos.le
  have hsqrt_ne : Real.sqrt (Real.pi ^ 2 + (0 : ℝ) ^ 2) ≠ 0 := by
    rw [hsq0]; exact Real.pi_ne_zero
  have hhalf := hsqrt.div_const 2
  have hsin := (Real.hasDerivAt_sin (Real.sqrt (Real.pi ^ 2 + (0 : ℝ) ^ 2) / 2)).comp 0 hhalf
  have hw := hsin.div hsqrt hsqrt_ne
  have hneg : HasDerivAt (fun s : ℝ => -s) (-1) 0 := by
    simpa using (hasDerivAt_id (0 : ℝ)).neg
  have hmain0 := hneg.mul hw
  have hmain : HasDerivAt (fun s : ℝ => -s * (Real.sin (Real.sqrt (Real.pi ^ 2 + s ^ 2) / 2) /
      Real.sqrt (Real.pi ^ 2 + s ^ 2)))
      (-1 * (Real.sin (Real.sqrt (Real.pi ^ 2 + (0 : ℝ) ^ 2) / 2) /
        Real.sqrt (Real.pi ^ 2 + (0 : ℝ) ^ 2)) +
       -(0 : ℝ) * ((Real.cos (Real.sqrt (Real.pi ^ 2 + (0 : ℝ) ^ 2) / 2) *
          (0 / (2 * Real.sqrt (Real.pi ^ 2 + (0 : ℝ) ^ 2)) / 2) *
          Real.sqrt (Real.pi ^ 2 + (0 : ℝ) ^ 2) -
        Real.sin (Real.sqrt (Real.pi ^ 2 + (0 : ℝ) ^ 2) / 2) *
          (0 / (2 * Real.sqrt (Real.pi ^ 2 + (0 : ℝ) ^ 2)))) /
        Real.sqrt (Real.pi ^ 2 + (0 : ℝ) ^ 2) ^ 2)) 0 := by
    simpa [Function.comp] using hmain0
  rw [hmain.deriv]
  rw [hsq0]
  simp [Real.sin_pi_div_two, Real.pi_ne_zero]

theorem wirtinger_lossCE :
    wirtinger lossCE (Real.pi : ℂ) = Complex.I / (2 * (Real.pi : ℂ)) := by
  unfold wirtinger
  rw [pdRe_lossCE, pdIm_lossCE]
  have : ((Real.pi : ℝ) : ℂ) ≠ 0 := by
    simpa using Real.pi_ne_zero
  push_cast
  field_simp
  ring

/-- C1 counterexample: for the call `rf = [π]`, `x = [0]`, `g = [0]`,
`auxa` absent, `auxb = [1]`, with `(af, bf)` the raw pre-correction
forward outputs `([0], [i])`, `deriv` returns `drf = [−i/2]`, while the
Wirtinger derivative `∂L/∂rf[0]` of the loss at the final corrected state
is `i/(2π)`; the two differ. -/
theorem deriv_not_loss_wirtinger :
    blochsimPre1 [(Real.pi : ℂ)] [0] [0] = .ok ([0], [Complex.I]) ∧
    deriv1 [(Real.pi : ℂ)] [0] [0] none [1] [0] [Complex.I] = .ok [-(Complex.I / 2)] ∧
    wirtinger lossCE (Real.pi : ℂ) = Complex.I / (2 * (Real.pi : ℂ)) ∧
    -(Complex.I / 2) ≠ Complex.I / (2 * (Real.pi : ℂ)) := by
  refine ⟨?_, ?_, wirtinger_lossCE, ?_⟩
  · unfold blochsimPre1
    simp [bsLoop, zf1, idx, rfRotStep, rfC_pi, rfS_pi, Complex.exp_zero]
  · simp [deriv1, dgo, derivStep, wf1, idx, ew, accumRF, rfC_pi, rfS_pi,
      Complex.exp_zero]
    ring
  · intro h
    have him := congrArg Complex.im h
    have hpi := Real.pi_pos
    simp [Complex.div_im, Complex.normSq_apply] at him
    have hinv : (0 : ℝ) < Real.pi⁻¹ := inv_pos.mpr hpi
    nlinarith [him, hinv]

theorem sum_zipWith_const_zero {α β : Type} (l1 : List α) (l2 : List β) :
    (List.zipWith (fun _ _ => (0 : ℂ)) l1 l2).sum = 0 := by
  apply List.sum_eq_zero
  intro y hy
  obtain ⟨a, _, b, _, rfl⟩ := exists_of_mem_zipWith hy
  rfl

theorem star_exp_c (z : ℂ) : star (Complex.exp z) = Complex.exp (star z) := by
  simp [Complex.star_def, ← Complex.exp_conj]

/-- One reverse-loop iteration at a zero RF sample, on map-form states with
`bf = br = 0`: the rotation is the identity, the forward replay picks up
the conjugate phase, the accumulator picks up the phase, and the gradient
entry is the `db2` sum alone (the `auxa` terms vanish with `bf = br = 0`). -/
theorem stepAux_zero_eval {α : Type} (x : List α) (auxa : Option (List ℂ))
    (auxb : List ℂ) (p q w : α → ℂ) :
    stepAux 0 (x.map w) (x.map p) (x.map fun _ => 0) (x.map q) (x.map fun _ => 0)
        auxa auxb =
      ((x.map fun xj => p xj * star (w xj), x.map fun _ => 0,
        x.map fun xj => q xj * w xj, x.map fun _ => 0),
       (List.zipWith (fun xj β =>
         star (Complex.I / 2 * (p xj * star (w xj))) * (q xj * w xj) * β) x auxb).sum) := by
  unfold stepAux
  rw [rfC_zero, rfS_zero]
  cases auxa with
  | none =>
    simp only [List.zipWith_map_right, List.zipWith_map_left, List.map_zipWith,
      List.zipWith_same, zipWith_zipWith_same, List.map_map, Function.comp,
      zipWith_map_same, Complex.ofReal_one, mul_one, one_mul, mul_zero, zero_mul,
      star_zero, neg_zero, add_zero, zero_add, sub_zero]
  | some al =>
    simp only [List.zipWith_map_right, List.zipWith_map_left, List.map_zipWith,
      List.zipWith_same, zipWith_zipWith_same, List.map_map, Function.comp,
      zipWith_map_same, Complex.ofReal_one, mul_one, one_mul, mul_zero, zero_mul,
      star_zero, neg_zero, add_zero, zero_add, sub_zero, sum_zipWith_const_zero]

theorem sum_range_shift (f : ℕ → ℝ) (s m : ℕ) :
    ((List.range (m + 1)).map fun i => f (s + i)).sum =
      ((List.range m).map fun i => f (s + i)).sum + f (s + m) := by
  rw [List.range_succ, List.map_append, List.sum_append]
  simp

theorem get?_replicate_lt (n t : ℕ) (c : ℂ) (h : t < n) :
    (List.replicate n c).get? t = some c := by
  simp [List.get?_eq_getElem?, List.getElem?_replicate, h]

theorem zipWith_congr_fn {α β γ : Type} {f g : α → β → γ} (h : ∀ a b, f a b = g a b)
    (l1 : List α) (l2 : List β) : List.zipWith f l1 l2 = List.zipWith g l1 l2 := by
  rw [show f = g from funext fun a => funext fun b => h a b]

theorem star_half_phase (r : ℝ) :
    star (Complex.exp (Complex.I / 2 * (r : ℂ))) =
      Complex.exp (-(Complex.I / 2) * (r : ℂ)) := by
  rw [star_exp_c]
  congr 1
  simp [Complex.star_def, map_div₀]
  push_cast
  ring

theorem exp_half_add_neg (a b : ℝ) :
    Complex.exp (-(Complex.I / 2) * (a : ℂ)) * Complex.exp (-(Complex.I / 2) * (b : ℂ)) =
      Complex.exp (-(Complex.I / 2) * ((a + b : ℝ) : ℂ)) := by
  rw [← Complex.exp_add]
  congr 1
  push_cast
  ring

theorem exp_half_add_pos (a b : ℝ) :
    Complex.exp (Complex.I / 2 * (a : ℂ)) * Complex.exp (Complex.I / 2 * (b : ℂ)) =
      Complex.exp (Complex.I / 2 * ((a + b : ℝ) : ℂ)) := by
  rw [← Complex.exp_add]
  congr 1
  push_cast
  ring

theorem neg_star_half (r : ℝ) :
    star (Complex.exp (-(Complex.I / 2) * (r : ℂ))) =
      Complex.exp (Complex.I / 2 * (r : ℂ)) := by
  rw [star_exp_c]
  congr 1
  simp [Complex.star_def, map_div₀]
  push_cast
  ring

theorem grad_entry_scalar {a b : ℝ} {β : ℂ} :
    star (Complex.I / 2 * (Complex.exp (-(Complex.I / 2) * (a : ℂ)) *
        star (Complex.exp (Complex.I / 2 * (b : ℂ))))) *
      (Complex.exp (Complex.I / 2 * (a : ℂ)) * Complex.exp (Complex.I / 2 * (b : ℂ))) * β =
    -(Complex.I / 2) * β * Complex.exp (Complex.I * ((a + b : ℝ) : ℂ)) := by
  rw [star_half_phase, exp_half_add_neg, exp_half_add_pos]
  rw [star_mul', neg_star_half,
    show (star (Complex.I / 2) : ℂ) = -(Complex.I / 2) by
      simp [Complex.star_def, map_div₀]
      ring,
    mul_assoc (-(Complex.I / 2)), ← Complex.exp_add,
    show Complex.I / 2 * ((a + b : ℝ) : ℂ) + Complex.I / 2 * ((a + b : ℝ) : ℂ) =
      Complex.I * ((a + b : ℝ) : ℂ) by ring]
  ring

/-- The reverse loop of `deriv` on an identically zero RF waveform, from a
pure-phase state with carry `κ`: every gradient sample `s` comes out as
`−(i/2)·Σ_j auxb_j·exp(i·(κ_j + Σ_{k≥s} ψ_k(x_j)))`. -/
theorem dgo_zero_rf {α : Type} (zf : ℕ → Except SimErr (List ℂ)) (x : List α)
    (ψ : ℕ → α → ℝ) (auxa : Option (List ℂ)) (auxb : List ℂ) (n : ℕ)
    (hab : auxb.length = x.length) (haa : ∀ al ∈ auxa, al.length = x.length)
    (hz : ∀ k, k < n → zf k =
      .ok (x.map fun xj => Complex.exp (Complex.I / 2 * ((ψ k xj : ℝ) : ℂ)))) :
    ∀ (t : ℕ), t ≤ n → ∀ (κ : α → ℝ),
      dgo zf (List.replicate n 0) auxa auxb t
        (x.map fun xj => Complex.exp (-(Complex.I / 2) * ((κ xj : ℝ) : ℂ)))
        (x.map fun _ => 0)
        (x.map fun xj => Complex.exp (Complex.I / 2 * ((κ xj : ℝ) : ℂ)))
        (x.map fun _ => 0) =
      .ok ((List.range t).map fun s =>
        (List.zipWith (fun (xj : α) (β : ℂ) => -(Complex.I / 2) * β *
          Complex.exp (Complex.I *
            ((κ xj + ((List.range (t - s)).map fun i => ψ (s + i) xj).sum : ℝ) : ℂ)))
          x auxb).sum) := by
  intro t
  induction t with
  | zero => intro _ κ; simp [dgo]
  | succ t ih =>
    intro ht κ
    rw [dgo]
    have hu : (List.replicate n (0 : ℂ)).get? t = some 0 :=
      get?_replicate_lt n t 0 (by omega)
    have hzt := hz t (by omega)
    have hstep := derivStep_eval zf (List.replicate n 0) auxa auxb t
      (x.map fun xj => Complex.exp (-(Complex.I / 2) * ((κ xj : ℝ) : ℂ)))
      (x.map fun _ => 0)
      (x.map fun xj => Complex.exp (Complex.I / 2 * ((κ xj : ℝ) : ℂ)))
      (x.map fun _ => 0)
      (x.map fun xj => Complex.exp (Complex.I / 2 * ((ψ t xj : ℝ) : ℂ)))
      0 x.length hu hzt (by simp) (by simp) (by simp) (by simp) (by simp)
      hab (fun al hal => haa al hal)
    rw [hstep]
    rw [stepAux_zero_eval x auxa auxb
      (fun xj => Complex.exp (-(Complex.I / 2) * ((κ xj : ℝ) : ℂ)))
      (fun xj => Complex.exp (Complex.I / 2 * ((κ xj : ℝ) : ℂ)))
      (fun xj => Complex.exp (Complex.I / 2 * ((ψ t xj : ℝ) : ℂ)))]
    simp only [except_ok_bind]
    have haf : (x.map fun xj =>
        Complex.exp (-(Complex.I / 2) * ((κ xj : ℝ) : ℂ)) *
          star (Complex.exp (Complex.I / 2 * ((ψ t xj : ℝ) : ℂ)))) =
        x.map fun xj =>
          Complex.exp (-(Complex.I / 2) * ((κ xj + ψ t xj : ℝ) : ℂ)) :=
      List.map_congr_left fun xj _ => by
        rw [star_half_phase, exp_half_add_neg]
    have har : (x.map fun xj =>
        Complex.exp (Complex.I / 2 * ((κ xj : ℝ) : ℂ)) *
          Complex.exp (Complex.I / 2 * ((ψ t xj : ℝ) : ℂ))) =
        x.map fun xj =>
          Complex.exp (Complex.I / 2 * ((κ xj + ψ t xj : ℝ) : ℂ)) :=
      List.map_congr_left fun xj _ => by
        rw [exp_half_add_pos]
    rw [haf, har]
    rw [ih (by omega) (fun xj => κ xj + ψ t xj)]
    simp only [except_ok_bind]
    refine congrArg Except.ok ?_
    rw [List.range_succ, List.map_append]
    congr 1
    · refine List.map_congr_left fun s hs => ?_
      have hs' : s < t := List.mem_range.mp hs
      refine congrArg List.sum (zipWith_congr_fn (fun xj β => ?_) x auxb)
      have harith : t + 1 - s = (t - s) + 1 := by omega
      rw [harith, sum_range_shift (fun k => ψ k xj) s (t - s),
        show s + (t - s) = t by omega]
      rw [show κ xj + ψ t xj + ((List.range (t - s)).map fun i => ψ (s + i) xj).sum =
        κ xj + (((List.range (t - s)).map fun i => ψ (s + i) xj).sum + ψ t xj) by ring]
    · simp only [List.map_cons, List.map_nil]
      refine congrArg (fun v => [v]) ?_
      refine congrArg List.sum (zipWith_congr_fn (fun xj β => ?_) x auxb)
      rw [grad_entry_scalar]
      rw [show t + 1 - t = 1 by omega]
      simp only [List.range_succ, List.range_zero, List.nil_append, List.map_cons,
        List.map_nil, List.sum_cons, List.sum_nil, add_zero, Nat.add_zero]

/-! ### Forward closed form for a zero waveform with one perturbed sample -/

theorem list_map_exp_prod (l : List ℂ) : (l.map Complex.exp).prod = Complex.exp l.sum := by
  induction l with
  | nil => simp
  | cons c t ih => simp [ih, Complex.exp_add]

theorem list_sum_mul_left (c : ℂ) (l : List ℂ) :
    (l.map fun v => c * v).sum = c * l.sum := by
  induction l with
  | nil => simp
  | cons a t ih => simp [ih]; ring

theorem list_sum_star (l : List ℂ) : star l.sum = (l.map star).sum := by
  induction l with
  | nil => simp
  | cons a t ih => simp [ih]

theorem list_sum_re (l : List ℂ) : (l.map Complex.re).sum = l.sum.re := by
  induction l with
  | nil => simp
  | cons a t ih => simp [ih]

theorem list_sum_map_mul_real {α : Type} (a : ℝ) (f : α → ℝ) (l : List α) :
    (l.map fun i => a * f i).sum = a * (l.map f).sum := by
  induction l with
  | nil => simp
  | cons b t ih => simp [ih]; ring

theorem zipWith_const_right {α β γ : Type} (f : α → γ) :
    ∀ (l1 : List α) (l2 : List β), l1.length = l2.length →
      List.zipWith (fun a _ => f a) l1 l2 = l1.map f := by
  intro l1
  induction l1 with
  | nil => intro l2 _; rfl
  | cons a t ih =>
    intro l2 h
    cases l2 with
    | nil => simp at h
    | cons b t2 =>
      simp only [List.zipWith_cons_cons, List.map_cons]
      exact congrArg (f a :: ·) (ih t2 (by simpa using h))

/-- A zero-RF segment leaves `a` alone and multiplies `b` by the product of
the per-step phases. -/
theorem spinRun_zero_rf_gen {α : Type} (P : ℕ → α → ℂ) (xj : α) :
    ∀ (m mm : ℕ) (a b : ℂ),
      spinRun P xj (List.replicate m 0) mm (a, b) =
        (a, b * ((List.range m).map fun k => P (mm + k) xj).prod) := by
  intro m
  induction m with
  | zero => intro mm a b; simp [spinRun]
  | succ m ih =>
    intro mm a b
    rw [List.replicate_succ]
    show spinRun P xj (0 :: List.replicate m 0) mm (a, b) = _
    simp only [spinRun, rfRotStep_zero]
    rw [ih (mm + 1)]
    refine congrArg (Prod.mk a) ?_
    rw [List.range_succ_eq_map]
    simp only [List.map_cons, List.map_map, List.prod_cons, Nat.add_zero]
    rw [show ((fun k => P (mm + k) xj) ∘ Nat.succ) = fun k => P (mm + 1 + k) xj by
      funext k
      have h : mm + Nat.succ k = mm + 1 + k := by omega
      simp [Function.comp, h]]
    ring

theorem spinRun_append {α : Type} (P : ℕ → α → ℂ) (xj : α) :
    ∀ (l1 l2 : List ℂ) (mm : ℕ) (ab : ℂ × ℂ),
      spinRun P xj (l1 ++ l2) mm ab =
        spinRun P xj l2 (mm + l1.length) (spinRun P xj l1 mm ab) := by
  intro l1
  induction l1 with
  | nil => intro l2 mm ab; simp [spinRun]
  | cons u t ih =>
    intro l2 mm ab
    simp only [List.cons_append, spinRun, List.append_eq]
    rw [ih]
    have h : mm + 1 + t.length = mm + (t.length + 1) := by omega
    rw [List.length_cons, h]

theorem replicate_set (u : ℂ) : ∀ (n t : ℕ), t < n →
    (List.replicate n (0 : ℂ)).set t u =
      List.replicate t 0 ++ u :: List.replicate (n - t - 1) 0 := by
  intro n
  induction n with
  | zero => intro t ht; omega
  | succ n ih =>
    intro t ht
    cases t with
    | zero => simp [List.replicate_succ]
    | succ t =>
      rw [List.replicate_succ, List.set_cons_succ, ih t (by omega)]
      rw [show n + 1 - (t + 1) - 1 = n - t - 1 by omega]
      simp [List.replicate_succ]

/-- The raw forward state of the all-zero waveform: `a = 1`, `b = 0`. -/
theorem blochsimPre1_zero (n : ℕ) (x g : List ℝ) (hg : g.length = n) :
    blochsimPre1 (List.replicate n 0) x g =
      .ok (x.map fun _ => (1 : ℂ), x.map fun _ => (0 : ℂ)) := by
  have hmap := bsLoop_map (zf1 x g) x
    (fun k (v : ℝ) => Complex.exp (-Complex.I * (v : ℂ) * ((g.getD k 0 : ℝ) : ℂ)))
    (List.replicate n 0) 0 (fun _ => 1) (fun _ => 0)
    (by
      intro k hk
      unfold zf1
      rw [get?_eq_some_getD g (0 + k) 0 (by simp at hk; omega)]
      rfl)
  unfold blochsimPre1
  rw [hmap]
  refine congrArg Except.ok (Prod.ext ?_ ?_) <;>
    exact List.map_congr_left fun xj _ => by
      simp only [spinRun_zero_rf, one_mul, zero_mul]

theorem ofReal_list_sum2 (l : List ℝ) :
    ((l.sum : ℝ) : ℂ) = (l.map Complex.ofReal).sum := by
  induction l with
  | nil => simp
  | cons a t ih => simp [ih]

/-- Joining a head phase with a zero-RF tail of phases into one accrued
phase factor. -/
theorem phase_prod (xj : ℝ) (g : List ℝ) (t n : ℕ) (ht : t < n) :
    Complex.exp (-Complex.I * (xj : ℂ) * ((g.getD t 0 : ℝ) : ℂ)) *
      ((List.range (n - t - 1)).map fun k =>
        Complex.exp (-Complex.I * (xj : ℂ) * ((g.getD (t + 1 + k) 0 : ℝ) : ℂ))).prod =
    Complex.exp (-Complex.I * (xj : ℂ) *
      ((((List.range (n - t)).map fun i => g.getD (t + i) 0).sum : ℝ) : ℂ)) := by
  obtain ⟨m, hm⟩ : ∃ m, n - t = m + 1 := ⟨n - t - 1, by omega⟩
  rw [hm, Nat.add_sub_cancel]
  rw [show ((List.range m).map fun k =>
      Complex.exp (-Complex.I * (xj : ℂ) * ((g.getD (t + 1 + k) 0 : ℝ) : ℂ))) =
      (((List.range m).map fun k =>
        -Complex.I * (xj : ℂ) * ((g.getD (t + 1 + k) 0 : ℝ) : ℂ)).map Complex.exp) by
    rw [List.map_map]; rfl]
  rw [list_map_exp_prod, ← Complex.exp_add]
  congr 1
  rw [List.range_succ_eq_map]
  simp only [List.map_cons, List.sum_cons, List.map_map, Nat.add_zero]
  rw [show ((fun i => g.getD (t + i) 0) ∘ Nat.succ) = fun i => g.getD (t + 1 + i) 0 by
    funext i
    have h : t + Nat.succ i = t + 1 + i := by omega
    simp [Function.comp, h]]
  rw [Complex.ofReal_add, ofReal_list_sum2, List.map_map]
  rw [mul_add]
  congr 1
  rw [← list_sum_mul_left (-Complex.I * (xj : ℂ)), List.map_map]
  refine congrArg List.sum ?_
  refine List.map_congr_left fun i _ => ?_
  rfl

/-- Raw forward state for the zero waveform with sample `t` replaced by
`u`: `a = C(u)` and `b = S(u)·exp(−i·x_j·Σ_{k≥t} g_k)` for every spin. -/
theorem blochsimPre1_set (n t : ℕ) (u : ℂ) (x g : List ℝ)
    (ht : t < n) (hg : g.length = n) :
    blochsimPre1 ((List.replicate n 0).set t u) x g =
      .ok (x.map fun _ => ((rfC u : ℝ) : ℂ),
        x.map fun (xj : ℝ) => rfS u * Complex.exp (-Complex.I * (xj : ℂ) *
          ((((List.range (n - t)).map fun i => g.getD (t + i) 0).sum : ℝ) : ℂ))) := by
  have hmap := bsLoop_map (zf1 x g) x
    (fun k (v : ℝ) => Complex.exp (-Complex.I * (v : ℂ) * ((g.getD k 0 : ℝ) : ℂ)))
    ((List.replicate n 0).set t u) 0 (fun _ => 1) (fun _ => 0)
    (by
      intro k hk
      unfold zf1
      rw [List.length_set, List.length_replicate] at hk
      rw [get?_eq_some_getD g (0 + k) 0 (by omega)]
      rfl)
  unfold blochsimPre1
  rw [hmap]
  have hspin : ∀ xj : ℝ,
      spinRun (fun k (v : ℝ) =>
          Complex.exp (-Complex.I * (v : ℂ) * ((g.getD k 0 : ℝ) : ℂ)))
        xj ((List.replicate n 0).set t u) 0 (1, 0) =
      (((rfC u : ℝ) : ℂ), rfS u * Complex.exp (-Complex.I * (xj : ℂ) *
        ((((List.range (n - t)).map fun i => g.getD (t + i) 0).sum : ℝ) : ℂ))) := by
    intro xj
    rw [replicate_set u n t ht, spinRun_append, spinRun_zero_rf]
    simp only [List.length_replicate, Nat.zero_add]
    rw [spinRun]
    simp only [rfRotStep, one_mul, zero_mul, sub_zero, add_zero]
    rw [spinRun_zero_rf_gen]
    refine congrArg (Prod.mk _) ?_
    rw [mul_assoc]
    refine congrArg (rfS u * ·) ?_
    exact phase_prod xj g t n ht
  refine congrArg Except.ok (Prod.ext ?_ ?_) <;>
    refine List.map_congr_left fun xj _ => ?_
  · rw [hspin xj]
  · rw [hspin xj]

/-! ### The raw-state loss along a one-sample perturbation of the zero pulse -/

/-- Accrued gradient sum from sample `t` on: `Σ_{k=t}^{n-1} g[k]`. -/
def gTail (g : List ℝ) (n t : ℕ) : ℝ :=
  ((List.range (n - t)).map fun i => g.getD (t + i) 0).sum

/-- Loss sensitivity carried by `b`: `Σ_j conj(auxb_j)·exp(−i·x_j·Σ_{k≥t} g_k)`. -/
noncomputable def wSum (x g : List ℝ) (auxb : List ℂ) (n t : ℕ) : ℂ :=
  (List.zipWith (fun w (xj : ℝ) =>
    star w * Complex.exp (-Complex.I * (xj : ℂ) * ((gTail g n t : ℝ) : ℂ))) auxb x).sum

/-- Loss sensitivity carried by `a`: `Σ_j Re(auxa_j)`, or `0` when absent. -/
noncomputable def aSum : Option (List ℂ) → ℝ
  | none => 0
  | some al => (al.map Complex.re).sum

/-- The §8 loss at the RAW pre-correction forward state of the zero
waveform with sample `t` replaced by `u` (an error run scores `0`). -/
noncomputable def rawLossAt (x g : List ℝ) (auxa : Option (List ℂ)) (auxb : List ℂ)
    (n t : ℕ) (u : ℂ) : ℝ :=
  match blochsimPre1 ((List.replicate n 0).set t u) x g with
  | .ok ab => lossAt auxa auxb ab
  | .error _ => 0

theorem list_sum_map_mul_right_real {α : Type} (a : ℝ) (f : α → ℝ) (l : List α) :
    (l.map fun i => f i * a).sum = (l.map f).sum * a := by
  induction l with
  | nil => simp
  | cons b t ih => simp [ih]; ring

/-- Closed form of the raw-state loss along the perturbation:
`L(u) = Re(S(u)·W) + C(u)·A`. -/
theorem rawLoss_closed (x g : List ℝ) (auxa : Option (List ℂ)) (auxb : List ℂ)
    (n t : ℕ) (ht : t < n) (hg : g.length = n) (hb : auxb.length = x.length)
    (ha : ∀ al ∈ auxa, al.length = x.length) (u : ℂ) :
    rawLossAt x g auxa auxb n t u =
      (rfS u * wSum x g auxb n t).re + rfC u * aSum auxa := by
  unfold rawLossAt
  rw [blochsimPre1_set n t u x g ht hg]
  simp only []
  unfold lossAt wSum gTail aSum
  have hbpart : (List.zipWith (fun w v => (star w * v).re) auxb
      (x.map fun (xj : ℝ) => rfS u * Complex.exp (-Complex.I * (xj : ℂ) *
        ((((List.range (n - t)).map fun i => g.getD (t + i) 0).sum : ℝ) : ℂ)))).sum =
      (rfS u * (List.zipWith (fun w (xj : ℝ) =>
        star w * Complex.exp (-Complex.I * (xj : ℂ) *
          ((((List.range (n - t)).map fun i => g.getD (t + i) 0).sum : ℝ) : ℂ))) auxb x).sum).re := by
    rw [List.zipWith_map_right]
    rw [show (List.zipWith (fun w (xj : ℝ) => (star w *
        (rfS u * Complex.exp (-Complex.I * (xj : ℂ) *
          ((((List.range (n - t)).map fun i => g.getD (t + i) 0).sum : ℝ) : ℂ)))).re) auxb x) =
      (List.zipWith (fun w (xj : ℝ) => star w *
        (rfS u * Complex.exp (-Complex.I * (xj : ℂ) *
          ((((List.range (n - t)).map fun i => g.getD (t + i) 0).sum : ℝ) : ℂ)))) auxb x).map
        Complex.re from (List.map_zipWith _ _ _ _).symm]
    rw [list_sum_re]
    refine congrArg Complex.re ?_
    rw [show (List.zipWith (fun w (xj : ℝ) => star w *
        (rfS u * Complex.exp (-Complex.I * (xj : ℂ) *
          ((((List.range (n - t)).map fun i => g.getD (t + i) 0).sum : ℝ) : ℂ)))) auxb x) =
      (List.zipWith (fun w (xj : ℝ) => star w *
        Complex.exp (-Complex.I * (xj : ℂ) *
          ((((List.range (n - t)).map fun i => g.getD (t + i) 0).sum : ℝ) : ℂ))) auxb x).map
        (fun v => rfS u * v) by
      rw [List.map_zipWith]
      exact zipWith_congr_fn (fun w xj => by ring) auxb x]
    rw [list_sum_mul_left]
  cases auxa with
  | none =>
    simp only [hbpart]
    ring
  | some al =>
    simp only [hbpart]
    refine congrArg (_ + ·) ?_
    rw [List.zipWith_map_right]
    rw [zipWith_const_right (fun w => (star w * ((rfC u : ℝ) : ℂ)).re) al x
      (ha al rfl)]
    rw [show (al.map fun w => (star w * ((rfC u : ℝ) : ℂ)).re) =
        al.map fun w => w.re * rfC u from
      List.map_congr_left fun w _ => by
        simp [Complex.mul_re]]
    rw [list_sum_map_mul_right_real]
    ring

/-- Derivative at `0` of `s ↦ sin(s/2)·K₁ + cos(s/2)·K₂` is `K₁/2`. -/
theorem hasDerivAt_trig_combo (K1 K2 : ℝ) :
    HasDerivAt (fun s : ℝ => Real.sin (s / 2) * K1 + Real.cos (s / 2) * K2)
      (K1 / 2) 0 := by
  have h2 : HasDerivAt (fun s : ℝ => s / 2) ((1 : ℝ) / 2) 0 := by
    simpa using (hasDerivAt_id (0 : ℝ)).div_const 2
  have hsin := (Real.hasDerivAt_sin ((0 : ℝ) / 2)).comp 0 h2
  have hcos := (Real.hasDerivAt_cos ((0 : ℝ) / 2)).comp 0 h2
  have hmain := (hsin.mul_const K1).add (hcos.mul_const K2)
  have hval : Real.cos ((0 : ℝ) / 2) * ((1 : ℝ) / 2) * K1 +
      -Real.sin ((0 : ℝ) / 2) * ((1 : ℝ) / 2) * K2 = K1 / 2 := by
    norm_num
    ring
  rw [hval] at hmain
  simpa [Function.comp] using hmain

/-- Real-part partial of the raw-state loss at `rf[t] = 0`: `−Im(W)/2`. -/
theorem rawLoss_pdRe (x g : List ℝ) (auxa : Option (List ℂ)) (auxb : List ℂ)
    (n t : ℕ) (ht : t < n) (hg : g.length = n) (hb : auxb.length = x.length)
    (ha : ∀ al ∈ auxa, al.length = x.length) :
    pdRe (rawLossAt x g auxa auxb n t) 0 = -(wSum x g auxb n t).im / 2 := by
  unfold pdRe
  have hfun : (fun s : ℝ => rawLossAt x g auxa auxb n t (0 + (s : ℂ))) =
      fun s : ℝ => Real.sin (s / 2) * (-(wSum x g auxb n t).im) +
        Real.cos (s / 2) * aSum auxa := by
    funext s
    rw [zero_add, rawLoss_closed x g auxa auxb n t ht hg hb ha, rfS_ofReal,
      rfC_ofReal]
    simp only [Complex.mul_re, Complex.mul_im, Complex.I_re, Complex.I_im,
      Complex.ofReal_re, Complex.ofReal_im]
    ring
  rw [hfun]
  rw [(hasDerivAt_trig_combo (-(wSum x g auxb n t).im) (aSum auxa)).deriv]

/-- Imaginary-part partial of the raw-state loss at `rf[t] = 0`: `−Re(W)/2`. -/
theorem rawLoss_pdIm (x g : List ℝ) (auxa : Option (List ℂ)) (auxb : List ℂ)
    (n t : ℕ) (ht : t < n) (hg : g.length = n) (hb : auxb.length = x.length)
    (ha : ∀ al ∈ auxa, al.length = x.length) :
    pdIm (rawLossAt x g auxa auxb n t) 0 = -(wSum x g auxb n t).re / 2 := by
  unfold pdIm
  have hfun : (fun s : ℝ => rawLossAt x g auxa auxb n t (0 + (s : ℂ) * Complex.I)) =
      fun s : ℝ => Real.sin (s / 2) * (-(wSum x g auxb n t).re) +
        Real.cos (s / 2) * aSum auxa := by
    funext s
    rw [zero_add, rawLoss_closed x g auxa auxb n t ht hg hb ha, rfS_I_ofReal,
      rfC_I_ofReal]
    simp only [Complex.mul_re, Complex.mul_im, Complex.neg_re, Complex.neg_im,
      Complex.ofReal_re, Complex.ofReal_im, neg_mul, neg_sub]
    ring
  rw [hfun]
  rw [(hasDerivAt_trig_combo (-(wSum x g auxb n t).re) (aSum auxa)).deriv]

/-- `∂L/∂x + i·∂L/∂y` of the raw-state loss at `rf[t] = 0`, as a single
complex number: `−(i/2)·conj(W)`. -/
theorem rawLoss_grad (x g : List ℝ) (auxa : Option (List ℂ)) (auxb : List ℂ)
    (n t : ℕ) (ht : t < n) (hg : g.length = n) (hb : auxb.length = x.length)
    (ha : ∀ al ∈ auxa, al.length = x.length) :
    ((pdRe (rawLossAt x g auxa auxb n t) 0 : ℝ) : ℂ) +
      ((pdIm (rawLossAt x g auxa auxb n t) 0 : ℝ) : ℂ) * Complex.I =
    -(Complex.I / 2) * star (wSum x g auxb n t) := by
  rw [rawLoss_pdRe x g auxa auxb n t ht hg hb ha,
    rawLoss_pdIm x g auxa auxb n t ht hg hb ha]
  apply Complex.ext
  · simp [Complex.add_re, Complex.mul_re, Complex.div_re, Complex.star_def]
    ring
  · simp [Complex.add_im, Complex.mul_im, Complex.div_im, Complex.star_def]
    ring

theorem wf1_psi (x g : List ℝ) (k : ℕ) (hk : k < g.length) :
    wf1 x g k = .ok (x.map fun (xj : ℝ) =>
      Complex.exp (Complex.I / 2 * ((xj * g.getD k 0 : ℝ) : ℂ))) := by
  unfold wf1
  rw [get?_eq_some_getD g k 0 hk]
  show Except.ok _ = _
  refine congrArg Except.ok (List.map_congr_left fun xj _ => ?_)
  congr 1
  push_cast
  ring

/-- The reverse-loop gradient entry at `rf ≡ 0` as a single complex
number: `−(i/2)·conj(W)`. -/
theorem code_entry (x : List ℝ) (g : List ℝ) (auxb : List ℂ) (n t : ℕ) :
    (List.zipWith (fun (xj : ℝ) (β : ℂ) => -(Complex.I / 2) * β *
      Complex.exp (Complex.I * (((0 : ℝ) + ((List.range (n - t)).map fun i =>
        xj * g.getD (t + i) 0).sum : ℝ) : ℂ))) x auxb).sum =
    -(Complex.I / 2) * star (wSum x g auxb n t) := by
  unfold wSum gTail
  rw [list_sum_star, List.map_zipWith, ← list_sum_mul_left, List.map_zipWith,
    List.zipWith_comm]
  refine congrArg List.sum (zipWith_congr_fn (fun β xj => ?_) auxb x)
  rw [star_mul', star_star, star_exp_c]
  rw [show star (-Complex.I * (xj : ℂ) * ((((List.range (n - t)).map fun i =>
      g.getD (t + i) 0).sum : ℝ) : ℂ)) =
    Complex.I * (xj : ℂ) * ((((List.range (n - t)).map fun i =>
      g.getD (t + i) 0).sum : ℝ) : ℂ) by
    simp [Complex.star_def]]
  rw [show ((0 : ℝ) + ((List.range (n - t)).map fun i => xj * g.getD (t + i) 0).sum) =
      xj * ((List.range (n - t)).map fun i => g.getD (t + i) 0).sum by
    rw [zero_add, list_sum_map_mul_real]]
  rw [Complex.ofReal_mul, ← mul_assoc]
  ring

/-- C1 (amended): when the RF waveform is identically zero and `(af, bf)`
are the raw pre-correction outputs of the forward recurrence for the same
`(rf, x, g)`, the gradient returned by `deriv` has length `Nt` and each
sample equals `∂L/∂Re(rf[t]) + i·∂L/∂Im(rf[t])` — the sum of the two real
partials, i.e. twice the conjugate Wirtinger derivative, not the Wirtinger
derivative `∂L/∂rf[t]` — of the §8 loss evaluated at the RAW pre-correction
final state, as a function of the single sample `rf[t]`. -/
theorem deriv_zero_rf_raw_loss_gradient (n t : ℕ) (x g : List ℝ)
    (auxa : Option (List ℂ)) (auxb : List ℂ) (af bf drf : List ℂ)
    (ht : t < n) (hg : g.length = n) (hb : auxb.length = x.length)
    (ha : ∀ al ∈ auxa, al.length = x.length)
    (hfwd : blochsimPre1 (List.replicate n 0) x g = .ok (af, bf))
    (hd : deriv1 (List.replicate n 0) x g auxa auxb af bf = .ok drf) :
    drf.length = n ∧
    drf.get? t = some (((pdRe (rawLossAt x g auxa auxb n t) 0 : ℝ) : ℂ) +
      ((pdIm (rawLossAt x g auxa auxb n t) 0 : ℝ) : ℂ) * Complex.I) := by
  rw [blochsimPre1_zero n x g hg] at hfwd
  have hpair := Except.ok.inj hfwd
  have haf : af = x.map fun _ => (1 : ℂ) := (congrArg Prod.fst hpair).symm
  have hbf : bf = x.map fun _ => (0 : ℂ) := (congrArg Prod.snd hpair).symm
  subst haf
  subst hbf
  unfold deriv1 at hd
  simp only [List.length_replicate, List.map_map, Function.comp] at hd
  have hdrf := dgo_zero_rf (wf1 x g) x (fun k xj => xj * g.getD k 0) auxa auxb n
    hb ha (fun k hk => wf1_psi x g k (by omega)) n le_rfl (fun _ => 0)
  beta_reduce at hdrf
  rw [show (List.map (fun (_ : ℝ) => (1 : ℂ)) x) =
      List.map (fun (_ : ℝ) => Complex.exp (-(Complex.I / 2) * ((0 : ℝ) : ℂ))) x from
    List.map_congr_left fun xj _ => by simp] at hd
  rw [show (List.map ((fun (_ : ℂ) => (1 : ℂ)) ∘ fun (_ : ℝ) => (1 : ℂ)) x) =
      List.map (fun (_ : ℝ) => Complex.exp (Complex.I / 2 * ((0 : ℝ) : ℂ))) x from
    List.map_congr_left fun xj _ => by simp] at hd
  rw [show (List.map ((fun (_ : ℂ) => (0 : ℂ)) ∘ fun (_ : ℝ) => (0 : ℂ)) x) =
      List.map (fun (_ : ℝ) => (0 : ℂ)) x from
    List.map_congr_left fun xj _ => by simp] at hd
  rw [hdrf] at hd
  have hdq : drf = (List.range n).map fun s =>
      (List.zipWith (fun (xj : ℝ) (β : ℂ) => -(Complex.I / 2) * β *
        Complex.exp (Complex.I * (((0 : ℝ) + ((List.range (n - s)).map fun i =>
          xj * g.getD (s + i) 0).sum : ℝ) : ℂ))) x auxb).sum :=
    (Except.ok.inj hd).symm
  subst hdq
  constructor
  · simp
  · simp only [List.get?_eq_getElem?, List.getElem?_map, List.getElem?_range ht,
      Option.map_some]
    refine congrArg some ?_
    rw [rawLoss_grad x g auxa auxb n t ht hg hb ha]
    exact code_entry x g auxb n t

/-- Witness for the amended C1 theorem at `n = 1`, `t = 0`, `x = [0]`,
`g = [0]`, `auxa` absent, `auxb = [1]`. -/
theorem deriv_zero_rf_raw_loss_gradient_witness :
    blochsimPre1 (List.replicate 1 0) [0] [0] = .ok ([1], [0]) ∧
    deriv1 (List.replicate 1 0) [0] [0] none [1] [1] [0] = .ok [-(Complex.I / 2)] ∧
    ([-(Complex.I / 2)] : List ℂ).length = 1 ∧
    ([-(Complex.I / 2)] : List ℂ).get? 0 =
      some (((pdRe (rawLossAt [0] [0] none [1] 1 0) 0 : ℝ) : ℂ) +
        ((pdIm (rawLossAt [0] [0] none [1] 1 0) 0 : ℝ) : ℂ) * Complex.I) := by
  have h1 : blochsimPre1 (List.replicate 1 0) [0] [0] = .ok ([1], [0]) := by
    rw [blochsimPre1_zero 1 [0] [0] rfl]
    rfl
  have h2 : deriv1 (List.replicate 1 0) [0] [0] none [1] [1] [0] =
      .ok [-(Complex.I / 2)] := by
    simp [deriv1, dgo, derivStep, wf1, idx, ew, accumRF, rfC_zero, rfS_zero,
      Complex.exp_zero]
    ring
  have hmain := deriv_zero_rf_raw_loss_gradient 1 0 [0] [0] none [1] [1] [0]
    [-(Complex.I / 2)] (by omega) rfl rfl (by simp) h1 h2
  exact ⟨h1, h2, hmain.1, hmain.2⟩

end Optcont